import Mathlib

/-!
Verification of the DOF restriction / gather-scatter layer of
`fem/backup/restriction_now.cpp` (MFEM fork).

The C++ code is shallowly embedded: arrays become total functions
(`ℕ → ℤ`, `ℤ → ℕ`) updated with `Function.update`, and each imperative
loop becomes a `List.foldl` over the exact iteration sequence of the
source loop.  The `double` values carried by the vectors are modelled by
the commutative ring `ℤ` (the kernels only copy, negate and add entries,
so any commutative ring is a faithful value model, and `ℤ` lets concrete
instances evaluate by `decide`).  C integer division/modulus on
possibly-negative values is `Int.tdiv`/`Int.tmod` (truncation toward
zero), matching C++ semantics.
-/
/-- Unsigned decoding of a signed DOF id: `gid = (s >= 0) ? s : -1-s`
(`restriction_now.cpp:73` and elsewhere). -/
def decodeU (s : ℤ) : ℕ := (if 0 ≤ s then s else -1 - s).toNat

/-- Sign decoding of a signed DOF id: `+1` if `s >= 0`, else `-1`. -/
def decodeSgn (s : ℤ) : ℤ := if 0 ≤ s then 1 else -1

/-! ### Generic loop lemmas

Imperative write loops are folds of `Function.update`; the lemmas below
characterise them when the written keys do not collide. -/
/-- A loop that writes, for each `a` in `L`, the cell `key a`, replacing its
old contents `v` by `val a v`.  (`val a v = v + t` models `+=`, a constant
function of `v` models plain assignment.) -/
def writeFold {α β γ : Type} [DecidableEq γ] (key : α → γ) (val : α → β → β)
    (L : List α) (y : γ → β) : γ → β :=
  L.foldl (fun y a => Function.update y (key a) (val a (y (key a)))) y

/-- The iteration sequence of a doubly nested loop, outer index first. -/
def pairList (n m : ℕ) : List (ℕ × ℕ) :=
  (List.range n).flatMap (fun i => (List.range m).map (fun c => (i, c)))

/-! ### Element restriction (`ElementRestriction`, `restriction_now.cpp:26-104`)

The constructor's inputs: element count `ne`, uniform per-element dof count
`dof`, global dof count `ndofs`, vector dimension `vdim` with layout flag
`byvdim`, the element-to-dof incidence table `elementMap` (signed global
ids), and the optional lexicographic reordering `dofMap` (signed local
slots), active when `dofReorder` (i.e. `e_ordering == LEXICOGRAPHIC`). -/
/-- Prefix-sum loop (`restriction_now.cpp:78-81`):
`for i in 1..ndofs: offsets[i] += offsets[i-1]`. -/
def sumLoop (n : ℕ) (off : ℕ → ℕ) : ℕ → ℕ :=
  (List.range n).foldl (fun o i => Function.update o (i + 1) (o (i + 1) + o i)) off

/-- Shift-back loop (`restriction_now.cpp:97-103`): `for i = ndofs..1:
offsets[i] = offsets[i-1]`, then `offsets[0] = 0`. -/
def shiftLoop (n : ℕ) (off : ℕ → ℕ) : ℕ → ℕ :=
  Function.update
    ((List.range n).reverse.foldl (fun o i => Function.update o (i + 1) (o i)) off)
    0 0

structure ElementRestriction where
  ne : ℕ
  dof : ℕ
  ndofs : ℕ
  vdim : ℕ
  byvdim : Bool
  dofReorder : Bool
  elementMap : ℕ → ℤ
  dofMap : ℕ → ℤ

namespace ElementRestriction

/-- Total number of element-local slots, `ne*dof`. -/
def N (r : ElementRestriction) : ℕ := r.ne * r.dof

/-- The unsigned global id used by the counting phase
(`restriction_now.cpp:72-74`): `gid = decode(elementMap[dof*e+d])`,
with `l = dof*e+d`. -/
def cgid (r : ElementRestriction) (l : ℕ) : ℕ := decodeU (r.elementMap l)

/-- The signed reordered slot `sdid` of the placement phase
(`restriction_now.cpp:87`): `dof_map[d]` under reordering, else `0`. -/
def sdid (r : ElementRestriction) (d : ℕ) : ℤ :=
  if r.dofReorder then r.dofMap d else 0

/-- The reordered slot `did` (`restriction_now.cpp:88`). -/
def did (r : ElementRestriction) (d : ℕ) : ℕ :=
  if r.dofReorder then decodeU (r.dofMap d) else d

/-- The signed global id read by the placement phase
(`restriction_now.cpp:89`): `elementMap[dof*e + did]` for `l = dof*e + d`. -/
def sgid (r : ElementRestriction) (l : ℕ) : ℤ :=
  r.elementMap (r.dof * (l / r.dof) + r.did (l % r.dof))

/-- Unsigned global id of local slot `l` in the placement phase. -/
def pgid (r : ElementRestriction) (l : ℕ) : ℕ := decodeU (r.sgid l)

/-- The sign agreement `plus` (`restriction_now.cpp:92`):
`(sgid >= 0 && sdid >= 0) || (sgid < 0 && sdid < 0)`. -/
def plusP (r : ElementRestriction) (l : ℕ) : Prop :=
  (0 ≤ r.sgid l ∧ 0 ≤ r.sdid (l % r.dof)) ∨ (r.sgid l < 0 ∧ r.sdid (l % r.dof) < 0)

instance (r : ElementRestriction) (l : ℕ) : Decidable (r.plusP l) := by
  unfold plusP; infer_instance

/-- `gatherMap[lid] = plus ? gid : -1-gid` (`restriction_now.cpp:93`; each
`lid` is written exactly once by the loop, so the array is this function). -/
def gatherMap (r : ElementRestriction) (l : ℕ) : ℤ :=
  if r.plusP l then (r.pgid l : ℤ) else -1 - (r.pgid l : ℤ)

/-- The signed local index stored into `indices`
(`restriction_now.cpp:94`): `plus ? lid : -1-lid`. -/
def wval (r : ElementRestriction) (l : ℕ) : ℤ :=
  if r.plusP l then (l : ℤ) else -1 - (l : ℤ)

/-- Counting loop (`restriction_now.cpp:64-76`): zero `offsets`, then
`++offsets[gid+1]` for every local slot. -/
def countLoop (r : ElementRestriction) : ℕ → ℕ :=
  (List.range r.N).foldl
    (fun off l => Function.update off (r.cgid l + 1) (off (r.cgid l + 1) + 1))
    (fun _ => 0)

/-- `offsets` as it stands between the prefix sum and the placement loop. -/
def offsets1 (r : ElementRestriction) : ℕ → ℕ := sumLoop r.ndofs (r.countLoop)

/-- One step of the placement loop (`restriction_now.cpp:83-96`): place the
signed local index at `indices[offsets[gid]++]`. -/
def placeStep (r : ElementRestriction) (st : (ℕ → ℕ) × (ℕ → ℤ)) (l : ℕ) :
    (ℕ → ℕ) × (ℕ → ℤ) :=
  (Function.update st.1 (r.pgid l) (st.1 (r.pgid l) + 1),
   Function.update st.2 (st.1 (r.pgid l)) (r.wval l))

/-- The placement loop, running over `lid = 0, …, ne*dof-1`. -/
def placeLoop (r : ElementRestriction) : (ℕ → ℕ) × (ℕ → ℤ) :=
  (List.range r.N).foldl r.placeStep (r.offsets1, fun _ => 0)

/-- The `indices` array after construction. -/
def indices (r : ElementRestriction) : ℕ → ℤ := r.placeLoop.2

/-- The `offsets` array after construction. -/
def offsets (r : ElementRestriction) : ℕ → ℕ := shiftLoop r.ndofs r.placeLoop.1

/-- Number of counting-phase slots with global id `g` (the multiplicity of
global DOF `g` in the element-to-dof table). -/
def cnt (r : ElementRestriction) (g : ℕ) : ℕ :=
  ((Finset.range r.N).filter (fun l => r.cgid l = g)).card

/-- Number of slots before `k` whose placement-phase global id is `g`. -/
def cntp (r : ElementRestriction) (k g : ℕ) : ℕ :=
  ((Finset.range k).filter (fun l => r.pgid l = g)).card

/-- Final position of slot `l` inside `indices`. -/
def pos (r : ElementRestriction) (l : ℕ) : ℕ :=
  r.offsets1 (r.pgid l) + r.cntp l (r.pgid l)

/-- Validity of the incidence table: decoded ids lie in `[0, ndofs)`.
This is guaranteed by the `FiniteElementSpace` the constructor reads. -/
def ValidGids (r : ElementRestriction) : Prop :=
  ∀ l < r.N, r.cgid l < r.ndofs

/-- Validity of the lexicographic `dof_map`: its decoding permutes
`[0, dof)` (true for `TensorBasisElement::GetDofMap`). -/
def ValidMap (r : ElementRestriction) : Prop :=
  r.dofReorder = true →
    (∀ d < r.dof, r.did d < r.dof) ∧
    (∀ d₁ < r.dof, ∀ d₂ < r.dof, r.did d₁ = r.did d₂ → d₁ = d₂)

instance (r : ElementRestriction) : Decidable r.ValidGids := by
  unfold ValidGids; infer_instance

instance (r : ElementRestriction) : Decidable r.ValidMap := by
  unfold ValidMap; infer_instance

/-- The reindexing `l ↦ dof*(l/dof) + did (l%dof)` taking a counting-phase
slot to the placement-phase slot reading the same table entry. -/
def phi (r : ElementRestriction) (l : ℕ) : ℕ :=
  r.dof * (l / r.dof) + r.did (l % r.dof)

/-- Flat index into a global vector for (dof `j`, component `c`):
`d_x(t?c:j, t?j:c)` on a column-major `Reshape(x, t?vd:ndofs, t?ndofs:vd)`
(`restriction_now.cpp:112`). -/
def gflat (r : ElementRestriction) (j c : ℕ) : ℕ :=
  if r.byvdim then c + r.vdim * j else j + r.ndofs * c

/-- Flat index into an element-local vector for (slot `d`, component `c`,
element `e`): column-major `Reshape(y, nd, vd, ne)` (`restriction_now.cpp:113`). -/
def lflat (r : ElementRestriction) (d c e : ℕ) : ℕ :=
  d + r.dof * (c + r.vdim * e)

/-- `ElementRestriction::Mult` (`restriction_now.cpp:106-126`): the Scatter.
For each `i < dof*ne` and `c < vdim` (the exact write sequence of the loop
nest), writes `d_y(i%nd, c, i/nd) = plus ? value : -value` with
`value = d_x(gid, c)`. -/
def Mult (r : ElementRestriction) (x y : ℕ → ℤ) : ℕ → ℤ :=
  writeFold (fun p : ℕ × ℕ => r.lflat (p.1 % r.dof) p.2 (p.1 / r.dof))
    (fun p _ =>
      let gid := r.gatherMap p.1
      let j := decodeU gid
      if 0 ≤ gid then x (r.gflat j p.2) else -(x (r.gflat j p.2)))
    (pairList (r.dof * r.ne) r.vdim) y

/-- `ElementRestriction::MultTranspose` (`restriction_now.cpp:149-175`): the
GatherTranspose.  For each `i < ndofs` and `c < vdim`, accumulates
`dofValue` over the bucket `offsets[i] ≤ j < offsets[i+1]` with the decoded
sign, and ASSIGNS it to `d_y(t?c:i, t?i:c)`. -/
def MultTranspose (r : ElementRestriction) (x y : ℕ → ℤ) : ℕ → ℤ :=
  writeFold (fun p : ℕ × ℕ => r.gflat p.1 p.2)
    (fun p _ =>
      let offset := r.offsets p.1
      let nextOffset := r.offsets (p.1 + 1)
      (List.range (nextOffset - offset)).foldl
        (fun acc t =>
          let idx := r.indices (offset + t)
          let idx_j := decodeU idx
          acc + (if 0 ≤ idx then x (r.lflat (idx_j % r.dof) p.2 (idx_j / r.dof))
                 else -(x (r.lflat (idx_j % r.dof) p.2 (idx_j / r.dof)))))
        0)
    (pairList r.ndofs r.vdim) y

end ElementRestriction

/-- Concrete element restriction: two 1D segments sharing one endpoint dof
(`ne = 2`, `dof = 2`, `ndofs = 3`, element-to-dof table `[0,1],[1,2]`). -/
def ER2 : ElementRestriction where
  ne := 2
  dof := 2
  ndofs := 3
  vdim := 1
  byvdim := false
  dofReorder := false
  elementMap := fun l => if l = 0 then 0 else if l = 1 then 1 else if l = 2 then 1 else 2
  dofMap := fun _ => 0

/-- Concrete global input vector for the small examples. -/
def x2 : ℕ → ℤ := fun k => (k : ℤ) + 1

/-- Concrete initial output buffer (nonzero, to exhibit overwriting). -/
def y2 : ℕ → ℤ := fun _ => 37

/-- Concrete element restriction of spec §8.7: 2×2 quadrilateral mesh,
order-2 tensor H1 space; `ne = 4`, `dof = 9`, `ndofs = 5*5 = 25`; element
`e` at grid cell `(e%2, e/2)` covers the 3×3 node block starting at
`(2*(e%2), 2*(e/2))` of the 5×5 global lexicographic node grid. -/
def ER22 : ElementRestriction where
  ne := 4
  dof := 9
  ndofs := 25
  vdim := 1
  byvdim := false
  dofReorder := false
  elementMap := fun l =>
    ((2 * (l / 9 % 2) + l % 9 % 3) + 5 * (2 * (l / 9 / 2) + l % 9 / 3) : ℤ)
  dofMap := fun _ => 0

/-- Input vector for the 2×2 scenario: the indicator of the central node
(global dof 12, the node shared by all four elements). -/
def x22 : ℕ → ℤ := fun k => if k = 12 then 1 else 0

/-! ### Face-dof permutations (`restriction_now.cpp:1228-1392`)

All arguments are C `int`s, embedded as `ℤ`; the `switch` statements with no
`default` leave `new_i = new_j = 0` (their C initialisers) on unmatched
orientations. -/
/-- `ToLexOrdering2D` (`restriction_now.cpp:1228-1238`). -/
def ToLexOrdering2D (face_id size1d i : ℤ) : ℤ :=
  if face_id = 2 ∨ face_id = 3 then size1d - 1 - i else i

/-- `PermuteFace2D` (`restriction_now.cpp:1240-1260`). -/
def PermuteFace2D (face_id1 face_id2 orientation size1d index : ℤ) : ℤ :=
  let new_index := if face_id1 = 2 ∨ face_id1 = 3 then size1d - 1 - index else index
  let new_index := if orientation = 1 then size1d - 1 - new_index else new_index
  ToLexOrdering2D face_id2 size1d new_index

/-- `PermuteDFaceDNorm2D` (`restriction_now.cpp:1262-1282`); its body is
textually identical to `PermuteFace2D`. -/
def PermuteDFaceDNorm2D (face_id1 face_id2 orientation size1d index : ℤ) : ℤ :=
  let new_index := if face_id1 = 2 ∨ face_id1 = 3 then size1d - 1 - index else index
  let new_index := if orientation = 1 then size1d - 1 - new_index else new_index
  ToLexOrdering2D face_id2 size1d new_index

/-- `ToLexOrdering3D` (`restriction_now.cpp:1284-1299`). -/
def ToLexOrdering3D (face_id size1d i j : ℤ) : ℤ :=
  if face_id = 2 ∨ face_id = 1 ∨ face_id = 5 then i + j * size1d
  else if face_id = 3 ∨ face_id = 4 then (size1d - 1 - i) + j * size1d
  else i + (size1d - 1 - j) * size1d

/-- The from-lex flip of `i` in `PermuteFace3D` (`restriction_now.cpp:1308-1316`):
`if (face_id1==3 || face_id1==4) i = size1d-1-i`. -/
def fromLexI (face_id1 size1d i : ℤ) : ℤ :=
  if face_id1 = 3 ∨ face_id1 = 4 then size1d - 1 - i else i

/-- The from-lex flip of `j` in `PermuteFace3D` (`restriction_now.cpp:1308-1316`):
`else if (face_id1==0) j = size1d-1-j`. -/
def fromLexJ (face_id1 size1d j : ℤ) : ℤ :=
  if face_id1 = 3 ∨ face_id1 = 4 then j
  else if face_id1 = 0 then size1d - 1 - j else j

/-- `new_i` of the orientation `switch` in `PermuteFace3D`
(`restriction_now.cpp:1317-1352`); unmatched orientations keep the
initialiser `new_i = 0`. -/
def orientI (orientation size1d i j : ℤ) : ℤ :=
  if orientation = 0 then i
  else if orientation = 1 then j
  else if orientation = 2 then j
  else if orientation = 3 then size1d - 1 - i
  else if orientation = 4 then size1d - 1 - i
  else if orientation = 5 then size1d - 1 - j
  else if orientation = 6 then size1d - 1 - j
  else if orientation = 7 then i
  else 0

/-- `new_j` of the orientation `switch` in `PermuteFace3D`
(`restriction_now.cpp:1317-1352`). -/
def orientJ (orientation size1d i j : ℤ) : ℤ :=
  if orientation = 0 then j
  else if orientation = 1 then i
  else if orientation = 2 then size1d - 1 - i
  else if orientation = 3 then j
  else if orientation = 4 then size1d - 1 - j
  else if orientation = 5 then size1d - 1 - i
  else if orientation = 6 then i
  else if orientation = 7 then size1d - 1 - j
  else 0

/-- `PermuteFace3D` (`restriction_now.cpp:1301-1354`): decompose `index`
into `(i,j) = (index % size1d, index / size1d)`, apply the from-lex flips
selected by `face_id1`, the dihedral permutation selected by `orientation`,
and re-encode in `face_id2`'s frame. -/
def PermuteFace3D (face_id1 face_id2 orientation size1d index : ℤ) : ℤ :=
  ToLexOrdering3D face_id2 size1d
    (orientI orientation size1d (fromLexI face_id1 size1d (index.tmod size1d))
      (fromLexJ face_id1 size1d (index.tdiv size1d)))
    (orientJ orientation size1d (fromLexI face_id1 size1d (index.tmod size1d))
      (fromLexJ face_id1 size1d (index.tdiv size1d)))

/-- `PermuteFaceL2` (`restriction_now.cpp:1357-1373`); the unsupported-
dimension branch calls `mfem_error` and then `return 0`. -/
def PermuteFaceL2 (dim face_id1 face_id2 orientation size1d index : ℤ) : ℤ :=
  if dim = 1 then 0
  else if dim = 2 then PermuteFace2D face_id1 face_id2 orientation size1d index
  else if dim = 3 then PermuteFace3D face_id1 face_id2 orientation size1d index
  else 0

/-- `PermuteDFaceDNormL2` (`restriction_now.cpp:1376-1392`); the `case 3`
is commented out in the source, so 3D falls through to the error branch. -/
def PermuteDFaceDNormL2 (dim face_id1 face_id2 orientation size1d index : ℤ) : ℤ :=
  if dim = 1 then 0
  else if dim = 2 then PermuteDFaceDNorm2D face_id1 face_id2 orientation size1d index
  else 0

/-! ### Face restrictions: shared mesh-facing pieces -/
/-- `FaceType` (interior vs boundary faces). -/
inductive FaceType where
  | Interior : FaceType
  | Boundary : FaceType
deriving DecidableEq

/-- `L2FaceValues` (single- vs double-valued traces). -/
inductive L2FaceValues where
  | SingleValued : L2FaceValues
  | DoubleValued : L2FaceValues
deriving DecidableEq

/-- `GetFaceDofs` (`restriction_now.cpp:916-1021`): the element-local slot of
the `k`-th face dof (in lexicographic face order) of reference face
`face_id`, for a tensor element of `dof1d` nodes per direction.  In 3D the
face index decomposes as `k = i + j*dof1d`.  Unwritten cells of the C array
(invalid `face_id`) are modelled as `0`. -/
def GetFaceDofs (dim : ℕ) (face_id : ℤ) (dof1d : ℕ) (k : ℕ) : ℕ :=
  if dim = 1 then
    (if face_id = 0 then 0 else if face_id = 1 then dof1d - 1 else 0)
  else if dim = 2 then
    (if face_id = 0 then k
     else if face_id = 1 then dof1d - 1 + k * dof1d
     else if face_id = 2 then (dof1d - 1) * dof1d + k
     else if face_id = 3 then k * dof1d
     else 0)
  else if dim = 3 then
    (if face_id = 0 then k % dof1d + (k / dof1d) * dof1d
     else if face_id = 1 then k % dof1d + (k / dof1d) * (dof1d * dof1d)
     else if face_id = 2 then dof1d - 1 + (k % dof1d) * dof1d + (k / dof1d) * (dof1d * dof1d)
     else if face_id = 3 then (dof1d - 1) * dof1d + k % dof1d + (k / dof1d) * (dof1d * dof1d)
     else if face_id = 4 then (k % dof1d) * dof1d + (k / dof1d) * (dof1d * dof1d)
     else if face_id = 5 then (dof1d - 1) * (dof1d * dof1d) + k % dof1d + (k / dof1d) * dof1d
     else 0)
  else 0

/-! ### H1 face restriction (`H1FaceRestriction`, `restriction_now.cpp:1023-1226`)

Only the gather side (`offsets`, `gather_indices`) is embedded: it is the
part consumed by `MultTranspose`, the operation the claims mention. -/
structure H1FaceRestriction where
  nf : ℕ
  dof : ℕ
  vdim : ℕ
  byvdim : Bool
  ndofs : ℕ
  offsets : ℕ → ℕ
  gather_indices : ℕ → ℤ

/-- Constructor inputs of `H1FaceRestriction`: the mesh face queries
(`GetFaceElements` → `e1,e2`, `GetFaceInfos` → `inf1,inf2`), the space
metadata, and the requested face type. -/
structure H1FaceSetup where
  nfaces : ℕ
  e1 : ℕ → ℤ
  e2 : ℕ → ℤ
  inf1 : ℕ → ℤ
  inf2 : ℕ → ℤ
  dim : ℕ
  nf : ℕ
  vdim : ℕ
  byvdim : Bool
  ndofs : ℕ
  dof : ℕ
  dofReorder : Bool
  dofMap : ℕ → ℤ
  elementMap : ℕ → ℤ
  dof1d : ℕ
  elemDofs : ℕ
  type : FaceType

namespace H1FaceSetup

/-- Face selection (`restriction_now.cpp:1131-1132`):
`(type==Interior && (e2>=0 || (e2<0 && inf2>=0))) ||
 (type==Boundary && e2<0 && inf2<0)`. -/
def sel (s : H1FaceSetup) (f : ℕ) : Bool :=
  match s.type with
  | FaceType.Interior => decide (0 ≤ s.e2 f) || (decide (s.e2 f < 0) && decide (0 ≤ s.inf2 f))
  | FaceType.Boundary => decide (s.e2 f < 0) && decide (s.inf2 f < 0)

/-- The reordered element-local slot of face `f`, face-dof `d`
(`restriction_now.cpp:1137-1138`): `faceMap[d]` through `dof_map` when
reordering. -/
def did (s : H1FaceSetup) (f d : ℕ) : ℤ :=
  if s.dofReorder then s.dofMap (GetFaceDofs s.dim ((s.inf1 f).tdiv 64) s.dof1d d)
  else (GetFaceDofs s.dim ((s.inf1 f).tdiv 64) s.dof1d d : ℤ)

/-- The global dof of face `f`, face-dof `d` (`restriction_now.cpp:1139`):
`elementMap[e1*elem_dofs + did]`. -/
def gid (s : H1FaceSetup) (f d : ℕ) : ℕ :=
  (s.elementMap ((s.e1 f * s.elemDofs + s.did f d).toNat)).toNat

/-- Counting pass (`restriction_now.cpp:1120-1145`): `++offsets[gid+1]` for
each selected face and face-dof. -/
def countLoop (s : H1FaceSetup) : ℕ → ℕ :=
  (List.range s.nfaces).foldl
    (fun off f =>
      if s.sel f then
        (List.range s.dof).foldl
          (fun off d => Function.update off (s.gid f d + 1) (off (s.gid f d + 1) + 1))
          off
      else off)
    (fun _ => 0)

/-- Placement pass (`restriction_now.cpp:1150-1172`):
`gather_indices[offsets[gid]++] = dof*f_ind + d`, `f_ind` counting the
selected faces. -/
def placeLoop (s : H1FaceSetup) : ((ℕ → ℕ) × (ℕ → ℤ)) × ℕ :=
  (List.range s.nfaces).foldl
    (fun st f =>
      if s.sel f then
        ((List.range s.dof).foldl
          (fun st2 d =>
            (Function.update st2.1 (s.gid f d) (st2.1 (s.gid f d) + 1),
             Function.update st2.2 (st2.1 (s.gid f d)) ((s.dof * st.2 + d : ℕ) : ℤ)))
          st.1, st.2 + 1)
      else st)
    (((sumLoop s.ndofs s.countLoop, fun _ => 0), 0))

/-- The constructed `H1FaceRestriction` (gather side). -/
def construct (s : H1FaceSetup) : H1FaceRestriction where
  nf := s.nf
  dof := s.dof
  vdim := s.vdim
  byvdim := s.byvdim
  ndofs := s.ndofs
  offsets := shiftLoop s.ndofs s.placeLoop.1.1
  gather_indices := s.placeLoop.1.2

end H1FaceSetup

namespace H1FaceRestriction

/-- Global-vector flat index, `d_y(t?c:i, t?i:c)` (`restriction_now.cpp:1210`). -/
def gflat (r : H1FaceRestriction) (j c : ℕ) : ℕ :=
  if r.byvdim then c + r.vdim * j else j + r.ndofs * c

/-- Face-local flat index, `d_x(dof, c, face)` on shape `(nd, vd, nf)`
(`restriction_now.cpp:1209`). -/
def lflat (r : H1FaceRestriction) (d c f : ℕ) : ℕ :=
  d + r.dof * (c + r.vdim * f)

/-- `H1FaceRestriction::MultTranspose` (`restriction_now.cpp:1201-1226`):
for each global dof `i` and component `c`, the bucket sum `dofValue` is
ACCUMULATED onto the output: `d_y(t?c:i,t?i:c) += dofValue`. -/
def MultTranspose (r : H1FaceRestriction) (x y : ℕ → ℤ) : ℕ → ℤ :=
  writeFold (fun p : ℕ × ℕ => r.gflat p.1 p.2)
    (fun p old =>
      let offset := r.offsets p.1
      let nextOffset := r.offsets (p.1 + 1)
      old + (List.range (nextOffset - offset)).foldl
        (fun acc t =>
          let idx_j := (r.gather_indices (offset + t)).toNat
          acc + x (r.lflat (idx_j % r.dof) p.2 (idx_j / r.dof)))
        0)
    (pairList r.ndofs r.vdim) y

end H1FaceRestriction

/-- Concrete `H1FaceRestriction` scenario: one Q1 square element (`dof1d=2`,
`ndofs=4`), its 4 faces all true boundary faces (`e2=-1`, `inf2=-1`),
`type = Boundary`, identity `dof_map` and element-to-dof table. -/
def H1mesh1 : H1FaceSetup where
  nfaces := 4
  e1 := fun _ => 0
  e2 := fun _ => -1
  inf1 := fun f => 64 * f
  inf2 := fun _ => -1
  dim := 2
  nf := 4
  vdim := 1
  byvdim := false
  ndofs := 4
  dof := 2
  dofReorder := true
  dofMap := fun d => d
  elementMap := fun l => l
  dof1d := 2
  elemDofs := 4
  type := FaceType.Boundary

/-- The constructed restriction for `H1mesh1`. -/
def H1R1 : H1FaceRestriction := H1mesh1.construct

/-- All-ones face-local input vector. -/
def xone : ℕ → ℤ := fun _ => 1

/-- Nonzero initial global output buffer. -/
def y100 : ℕ → ℤ := fun _ => 100

/-! ### L2 (discontinuous) face restriction
(`L2FaceRestriction`, `restriction_now.cpp:1394-1825`)

The scatter side (`scatter_indices1`, `scatter_indices2`) is embedded: it is
what `Mult`, `FillI`, `FillJAndData` and `AddFaceMatricesToElementMatrices`
consume and what claims C7/C8 are about. -/
structure L2FaceRestriction where
  nf : ℕ
  ne : ℕ
  vdim : ℕ
  byvdim : Bool
  ndofs : ℕ
  dof : ℕ
  elemDofs : ℕ
  m : L2FaceValues
  scatter_indices1 : ℕ → ℤ
  scatter_indices2 : ℕ → ℤ

/-- Constructor inputs of `L2FaceRestriction`. -/
structure L2FaceSetup where
  nfaces : ℕ
  e1 : ℕ → ℤ
  e2 : ℕ → ℤ
  inf1 : ℕ → ℤ
  inf2 : ℕ → ℤ
  dim : ℕ
  nf : ℕ
  ne : ℕ
  vdim : ℕ
  byvdim : Bool
  ndofs : ℕ
  dof : ℕ
  elemDofs : ℕ
  dof1d : ℕ
  elementMap : ℕ → ℤ
  type : FaceType
  m : L2FaceValues

namespace L2FaceSetup

/-- `type==Interior && e2>=0` (`restriction_now.cpp:1484,1499`). -/
def selInterior (s : L2FaceSetup) (f : ℕ) : Bool :=
  decide (s.type = FaceType.Interior) && decide (0 ≤ s.e2 f)

/-- `type==Boundary && e2<0` (`restriction_now.cpp:1485,1509`). -/
def selBoundary (s : L2FaceSetup) (f : ℕ) : Bool :=
  decide (s.type = FaceType.Boundary) && decide (s.e2 f < 0)

/-- Side-1 scatter id of face `f`, face-dof `d`
(`restriction_now.cpp:1487-1494`): `elementMap[e1*elem_dofs + faceMap1[d]]`,
`faceMap1` from `face_id1 = inf1/64`. -/
def gid1 (s : L2FaceSetup) (f d : ℕ) : ℤ :=
  s.elementMap ((s.e1 f * s.elemDofs
    + GetFaceDofs s.dim ((s.inf1 f).tdiv 64) s.dof1d d).toNat)

/-- Side-2 scatter id for an interior face (`restriction_now.cpp:1499-1508`):
`faceMap2[PermuteFaceL2(dim, face_id1, face_id2, orientation, dof1d, d)]`
through `e2`'s dofs, with `face_id2 = inf2/64` and `orientation = inf2 % 64`
(the second assignment at `restriction_now.cpp:1474` overwrites the first). -/
def gid2 (s : L2FaceSetup) (f d : ℕ) : ℤ :=
  s.elementMap ((s.e2 f * s.elemDofs
    + GetFaceDofs s.dim ((s.inf2 f).tdiv 64) s.dof1d
        ((PermuteFaceL2 s.dim ((s.inf1 f).tdiv 64) ((s.inf2 f).tdiv 64)
          ((s.inf2 f).tmod 64) s.dof1d d).toNat)).toNat)

/-- One face of the scatter-index pass (`restriction_now.cpp:1465-1518`),
state `((scatter_indices1, scatter_indices2), f_ind)`. -/
def scatterStep (s : L2FaceSetup) (st : ((ℕ → ℤ) × (ℕ → ℤ)) × ℕ) (f : ℕ) :
    ((ℕ → ℤ) × (ℕ → ℤ)) × ℕ :=
  if s.selInterior f || s.selBoundary f then
    (((List.range s.dof).foldl
        (fun si1 d => Function.update si1 (s.dof * st.2 + d) (s.gid1 f d))
        st.1.1,
      if s.m = L2FaceValues.DoubleValued then
        (List.range s.dof).foldl
          (fun si2 d =>
            if s.selInterior f then
              Function.update si2 (s.dof * st.2 + d) (s.gid2 f d)
            else if s.selBoundary f then
              Function.update si2 (s.dof * st.2 + d) (-1)
            else si2)
          st.1.2
      else st.1.2),
     st.2 + 1)
  else st

/-- Scatter-index pass of the constructor (`restriction_now.cpp:1464-1518`). -/
def scatterLoop (s : L2FaceSetup) : ((ℕ → ℤ) × (ℕ → ℤ)) × ℕ :=
  (List.range s.nfaces).foldl s.scatterStep (((fun _ => 0), (fun _ => 0)), 0)

/-- The constructed `L2FaceRestriction` (scatter side). -/
def construct (s : L2FaceSetup) : L2FaceRestriction where
  nf := s.nf
  ne := s.ne
  vdim := s.vdim
  byvdim := s.byvdim
  ndofs := s.ndofs
  dof := s.dof
  elemDofs := s.elemDofs
  m := s.m
  scatter_indices1 := s.scatterLoop.1.1
  scatter_indices2 := s.scatterLoop.1.2

end L2FaceSetup

/-- The write sequence of the double-valued scatter loop
(`restriction_now.cpp:1630-1644`): for each `i < nfdofs`, the side-0 writes
for every component, then the side-1 writes. -/
def sideList (n m : ℕ) : List (ℕ × ℕ × ℕ) :=
  (List.range n).flatMap (fun i =>
    ((List.range m).map (fun c => (i, c, 0))) ++ ((List.range m).map (fun c => (i, c, 1))))

namespace L2FaceRestriction

/-- Total face dofs (per side), `nf*dof`. -/
def nfdofs (r : L2FaceRestriction) : ℕ := r.nf * r.dof

/-- Global-vector flat index (`restriction_now.cpp:1628`). -/
def gflat (r : L2FaceRestriction) (j c : ℕ) : ℕ :=
  if r.byvdim then c + r.vdim * j else j + r.ndofs * c

/-- Double-valued local flat index: `d_y(dof, c, side, face)` on column-major
shape `(nd, vd, 2, nf)` (`restriction_now.cpp:1629`). -/
def dflat (r : L2FaceRestriction) (d c sd f : ℕ) : ℕ :=
  d + r.dof * (c + r.vdim * (sd + 2 * f))

/-- Single-valued local flat index: `d_y(dof, c, face)` on shape
`(nd, vd, nf)` (`restriction_now.cpp:1650`). -/
def sflat (r : L2FaceRestriction) (d c f : ℕ) : ℕ :=
  d + r.dof * (c + r.vdim * f)

/-- `L2FaceRestriction::Mult` (`restriction_now.cpp:1617-1662`).  In the
double-valued case, side 0 copies through `scatter_indices1`; side 1 writes
`0.0` where `scatter_indices2` is the boundary sentinel `-1`, else copies
through it. -/
def Mult (r : L2FaceRestriction) (x y : ℕ → ℤ) : ℕ → ℤ :=
  if r.m = L2FaceValues.DoubleValued then
    writeFold (fun p : ℕ × ℕ × ℕ => r.dflat (p.1 % r.dof) p.2.1 p.2.2 (p.1 / r.dof))
      (fun p _ =>
        if p.2.2 = 0 then
          x (r.gflat (r.scatter_indices1 p.1).toNat p.2.1)
        else
          (if r.scatter_indices2 p.1 = -1 then 0
           else x (r.gflat (r.scatter_indices2 p.1).toNat p.2.1)))
      (sideList r.nfdofs r.vdim) y
  else
    writeFold (fun p : ℕ × ℕ => r.sflat (p.1 % r.dof) p.2 (p.1 / r.dof))
      (fun p _ => x (r.gflat (r.scatter_indices1 p.1).toNat p.2))
      (pairList r.nfdofs r.vdim) y

/-- `L2FaceRestriction::FillI` (`restriction_now.cpp:1720-1734`): for each
face dof, `AddNnz(iE1, I, face_dofs)` then `AddNnz(iE2, I, face_dofs)`,
the row counter array indexed DIRECTLY by the signed scatter indices —
including the boundary sentinel `-1` (row `-1` is out of bounds in C). -/
def FillI (r : L2FaceRestriction) (I : ℤ → ℤ) : ℤ → ℤ :=
  (List.range (r.nf * r.dof)).foldl
    (fun I fdof =>
      let iE1 := r.scatter_indices1 fdof
      let I1 := Function.update I iE1 (I iE1 + (r.dof : ℤ))
      let iE2 := r.scatter_indices2 fdof
      Function.update I1 iE2 (I1 iE2 + (r.dof : ℤ)))
    I

end L2FaceRestriction

/-- Concrete `L2FaceRestriction` scenario: one Q1 square element, its 4
faces all true boundary faces, `type = Boundary`, `m = DoubleValued`. -/
def L2mesh1 : L2FaceSetup where
  nfaces := 4
  e1 := fun _ => 0
  e2 := fun _ => -1
  inf1 := fun f => 64 * f
  inf2 := fun _ => -1
  dim := 2
  nf := 4
  ne := 1
  vdim := 1
  byvdim := false
  ndofs := 4
  dof := 2
  elemDofs := 4
  dof1d := 2
  elementMap := fun l => l
  type := FaceType.Boundary
  m := L2FaceValues.DoubleValued

/-! ### `GetMinElt` and `ElementRestriction::FillI`
(`restriction_now.cpp:251-280`, `restriction_now.cpp:290-361`)

`GetMinElt` builds the intersection of two element lists (inner double
loop appending `e_i` once per match) and then takes the minimum by a
linear scan starting from `inter[0]`.  The C arrays of capacity
`MaxNbNbr` are embedded as lists; the claim theorem carries the
capacity bound `cnt g ≤ 16` as an explicit hypothesis, since the C code
silently overflows its stack arrays beyond it. -/
/-- `GetMinElt` (`restriction_now.cpp:251-280`): intersection of the two
lists (one entry per matching pair, as in the source's double loop), then
the minimum of `inter[0..cpt)` by linear scan.  `headD 0` stands for the
read of `inter[0]`, meaningful only when the intersection is nonempty. -/
def GetMinElt (my_elts nbr_elts : List ℤ) : ℤ :=
  let inter := my_elts.flatMap (fun e_i =>
    nbr_elts.filterMap (fun e_j => if e_i = e_j then some e_i else none))
  (inter.drop 1).foldl (fun m v => if v < m then v else m) (inter.headD 0)

/-- The iteration sequence of a triply nested loop: outer index first, the
two inner indices as a `pairList`. -/
def tripleList (n m : ℕ) : List (ℕ × ℕ × ℕ) :=
  (List.range n).flatMap (fun e => (pairList m m).map (fun p => (e, p)))

namespace ElementRestriction

/-- Bucket size `nbElts = offsets[L+1] - offsets[L]`
(`restriction_now.cpp:321-322`). -/
def nbElts (r : ElementRestriction) (L : ℕ) : ℕ :=
  r.offsets (L + 1) - r.offsets L

/-- The element list gathered for a global row/column DOF `L`
(`restriction_now.cpp:323-327`): `elts[k] = indices[offsets[L]+k] / dof`
for `k < nbElts L`, with the C integer division (`Int.tdiv`). -/
def eltsList (r : ElementRestriction) (L : ℕ) : List ℤ :=
  (List.range (r.nbElts L)).map
    (fun k => (r.indices (r.offsets L + k)).tdiv (r.dof : ℤ))

/-- Body of the innermost `j` loop of `ElementRestriction::FillI`
(`restriction_now.cpp:328-353`) for the slot triple `(e, i, j)`.  The
`i`-level temporaries (`i_L`, `i_nbElts`, `i_elts`) are pure and inlined
here.  `GetAndIncrementNnzIndex(i_L, I)` is the increment of the counter
at row `i_L` (the returned old value is unused in `FillI`). -/
def fillIBody (r : ElementRestriction) (e i j : ℕ) (I : ℤ → ℕ) : ℤ → ℕ :=
  let i_L := r.gatherMap (e * r.dof + i)
  let i_nbElts := r.nbElts i_L.toNat
  let j_L := r.gatherMap (e * r.dof + j)
  let j_nbElts := r.nbElts j_L.toNat
  if i_nbElts = 1 ∨ j_nbElts = 1 then
    Function.update I i_L (I i_L + 1)
  else
    if (e : ℤ) = GetMinElt (r.eltsList i_L.toNat) (r.eltsList j_L.toNat) then
      Function.update I i_L (I i_L + 1)
    else I

/-- The per-row nnz counters after the triple loop of
`ElementRestriction::FillI` (`restriction_now.cpp:298-353`), starting
from the zero-initialised array. -/
def fillICount (r : ElementRestriction) : ℤ → ℕ :=
  (List.range r.ne).foldl
    (fun I e => (List.range r.dof).foldl
      (fun I i => (List.range r.dof).foldl
        (fun I j => r.fillIBody e i j I) I) I)
    (fun _ => 0)

/-- The sequential prefix-sum loop of `ElementRestriction::FillI`
(`restriction_now.cpp:354-359`): state `(h_I, sum)`, step
`nnz = h_I[i]; h_I[i] = sum; sum += nnz`. -/
def fillISum (r : ElementRestriction) : (ℤ → ℕ) × ℕ :=
  (List.range (r.vdim * r.ndofs)).foldl
    (fun st (i : ℕ) => (Function.update st.1 (i : ℤ) st.2, st.2 + st.1 (i : ℤ)))
    (r.fillICount, 0)

/-- `ElementRestriction::FillI` (`restriction_now.cpp:290-361`): final
row-pointer array (with `h_I[nTdofs] = sum`) and returned nnz total. -/
def FillI (r : ElementRestriction) : (ℤ → ℕ) × ℕ :=
  (Function.update r.fillISum.1 ((r.vdim * r.ndofs : ℕ) : ℤ) r.fillISum.2,
   r.fillISum.2)

/-- Row index (as the signed C `int` read from `gatherMap`) of a loop
triple `(e, i, j)`: `i_L = d_gatherMap[e*elt_dofs + i]`. -/
def rowOfZ (r : ElementRestriction) (t : ℕ × ℕ × ℕ) : ℤ :=
  r.gatherMap (t.1 * r.dof + t.2.1)

/-- Column index read from `gatherMap`: `j_L = d_gatherMap[e*elt_dofs + j]`. -/
def colOfZ (r : ElementRestriction) (t : ℕ × ℕ × ℕ) : ℤ :=
  r.gatherMap (t.1 * r.dof + t.2.2)

/-- The condition under which the loop triple `(e, i, j)` increments its
row counter: no assembly required (`i_nbElts == 1 || j_nbElts == 1`), or
`e` is the element returned by `GetMinElt`. -/
def fillCondP (r : ElementRestriction) (t : ℕ × ℕ × ℕ) : Prop :=
  r.nbElts (r.rowOfZ t).toNat = 1 ∨ r.nbElts (r.colOfZ t).toNat = 1 ∨
  (t.1 : ℤ) = GetMinElt (r.eltsList (r.rowOfZ t).toNat)
    (r.eltsList (r.colOfZ t).toNat)

instance (r : ElementRestriction) (t : ℕ × ℕ × ℕ) :
    Decidable (r.fillCondP t) := by
  unfold fillCondP; infer_instance

/-- Precondition for `FillI`: every `gatherMap` entry is stored with
positive sign (no `dof_map`/`elementMap` sign flips), so `i_L`/`j_L` are
the plain global ids.  `FillI` reads `gatherMap` entries directly as row
indices, which is meaningful only in this regime. -/
def AllPlus (r : ElementRestriction) : Prop := ∀ l < r.N, r.plusP l

instance (r : ElementRestriction) : Decidable r.AllPlus := by
  unfold AllPlus; infer_instance

/-- Precondition: within one element no global DOF occurs at two distinct
local slots (true for conforming `H1` spaces; fails e.g. on periodic
meshes where an element touches a DOF twice). -/
def DupFree (r : ElementRestriction) : Prop :=
  ∀ e < r.ne, ∀ i < r.dof, ∀ j < r.dof,
    r.pgid (e * r.dof + i) = r.pgid (e * r.dof + j) → i = j

instance (r : ElementRestriction) : Decidable r.DupFree := by
  unfold DupFree; infer_instance

/-- The set of elements having a local slot mapped to global DOF `g`. -/
def touches (r : ElementRestriction) (g : ℕ) : Finset ℕ :=
  (Finset.range r.ne).filter
    (fun e => ∃ i ∈ Finset.range r.dof, r.pgid (e * r.dof + i) = g)

/-- The coupled pairs of global DOFs: ordered pairs `(i_L, j_L)` such that
some element touches both. -/
def Couples (r : ElementRestriction) : Finset (ℕ × ℕ) :=
  ((Finset.range r.ndofs) ×ˢ (Finset.range r.ndofs)).filter
    (fun p => ((r.touches p.1) ∩ (r.touches p.2)).Nonempty)

/-- The iteration domain of the `FillI` triple loop as a `Finset`. -/
def fillTriples (r : ElementRestriction) : Finset (ℕ × ℕ × ℕ) :=
  (Finset.range r.ne) ×ˢ ((Finset.range r.dof) ×ˢ (Finset.range r.dof))

/-- Row DOF of a loop triple, as the unsigned decoded id. -/
def rowL (r : ElementRestriction) (t : ℕ × ℕ × ℕ) : ℕ :=
  r.pgid (t.1 * r.dof + t.2.1)

/-- Column DOF of a loop triple, as the unsigned decoded id. -/
def colL (r : ElementRestriction) (t : ℕ × ℕ × ℕ) : ℕ :=
  r.pgid (t.1 * r.dof + t.2.2)

/-- The loop triples that increment a counter on behalf of the coupled
pair `p`. -/
def contributors (r : ElementRestriction) (p : ℕ × ℕ) : Finset (ℕ × ℕ × ℕ) :=
  r.fillTriples.filter
    (fun t => r.fillCondP t ∧ r.rowL t = p.1 ∧ r.colL t = p.2)

end ElementRestriction

theorem decodeU_nonneg (s : ℤ) (h : 0 ≤ s) : (decodeU s : ℤ) = s := by
  simp [decodeU, h]

theorem decodeU_neg (s : ℤ) (h : s < 0) : (decodeU s : ℤ) = -1 - s := by
  have h' : ¬ (0 ≤ s) := by omega
  simp only [decodeU, if_neg h']
  omega

theorem writeFold_untouched {α β γ : Type} [DecidableEq γ] (key : α → γ)
    (val : α → β → β) (L : List α) (y : γ → β) (k : γ)
    (h : ∀ a ∈ L, key a ≠ k) : writeFold key val L y k = y k := by
  induction L generalizing y with
  | nil => rfl
  | cons a t ih =>
    have ha : key a ≠ k := h a (List.mem_cons_self a t)
    have h2 := ih (Function.update y (key a) (val a (y (key a))))
      (fun b hb => h b (List.mem_cons_of_mem a hb))
    rw [Function.update_noteq (Ne.symm ha)] at h2
    simpa [writeFold] using h2

theorem writeFold_eval {α β γ : Type} [DecidableEq γ] (key : α → γ)
    (val : α → β → β) (L₁ L₂ : List α) (a : α) (y : γ → β)
    (h₁ : ∀ b ∈ L₁, key b ≠ key a) (h₂ : ∀ b ∈ L₂, key b ≠ key a) :
    writeFold key val (L₁ ++ a :: L₂) y (key a) = val a (y (key a)) := by
  have base : writeFold key val L₁ y (key a) = y (key a) :=
    writeFold_untouched key val L₁ y (key a) h₁
  have step : writeFold key val (L₁ ++ a :: L₂) y
      = writeFold key val L₂
          (Function.update (writeFold key val L₁ y) (key a)
            (val a ((writeFold key val L₁ y) (key a)))) := by
    simp [writeFold, List.foldl_append]
  rw [step]
  rw [writeFold_untouched key val L₂ _ (key a) h₂]
  simp [base]

/-- Flattening of a nested loop of writes into one loop over dependent pairs. -/
theorem foldl_nested_eq_bind {α β δ : Type} (G : δ → (α × β) → δ)
    (L : List α) (M : α → List β) (y : δ) :
    L.foldl (fun y a => (M a).foldl (fun y b => G y (a, b)) y) y
      = (L.flatMap (fun a => (M a).map (fun b => (a, b)))).foldl G y := by
  induction L generalizing y with
  | nil => rfl
  | cons a t ih =>
    simp only [List.flatMap_cons, List.foldl_append, List.foldl_cons]
    rw [List.foldl_map, ih]

/-- An accumulation loop `for t in [0,n): acc += f t` is a `Finset` sum. -/
theorem foldl_add_eq_sum (f : ℕ → ℤ) (n : ℕ) (a : ℤ) :
    (List.range n).foldl (fun acc t => acc + f t) a
      = a + ∑ t in Finset.range n, f t := by
  induction n generalizing a with
  | zero => simp
  | succ m ih =>
    rw [List.range_succ, List.foldl_append, ih, Finset.sum_range_succ]
    simp [add_assoc]

/-- A counting loop `for a in L: ++cnt[key a]` counts fibers of `key`. -/
theorem foldl_count_eval {α γ : Type} [DecidableEq γ] (key : α → γ)
    (L : List α) (c : γ → ℕ) (g : γ) :
    (L.foldl (fun c a => Function.update c (key a) (c (key a) + 1)) c) g
      = c g + (L.countP (fun a => key a = g)) := by
  induction L generalizing c with
  | nil => simp
  | cons a t ih =>
    rw [List.foldl_cons, ih, List.countP_cons]
    by_cases h : key a = g
    · subst h
      simp only [Function.update_same, decide_True, if_true]
      omega
    · rw [Function.update_noteq (Ne.symm h)]
      simp [h]

/-- A conditional counting loop. -/
theorem foldl_count_cond_eval {α γ : Type} [DecidableEq γ] (key : α → γ)
    (p : α → Bool) (L : List α) (c : γ → ℕ) (g : γ) :
    (L.foldl (fun c a => if p a then Function.update c (key a) (c (key a) + 1) else c) c) g
      = c g + (L.countP (fun a => p a && (key a = g))) := by
  induction L generalizing c with
  | nil => simp
  | cons a t ih =>
    rw [List.foldl_cons, List.countP_cons]
    by_cases hp : p a
    · rw [if_pos hp, ih]
      by_cases h : key a = g
      · subst h
        simp only [Function.update_same, hp, Bool.true_and, decide_True, if_true]
        omega
      · rw [Function.update_noteq (Ne.symm h)]
        simp [h]
    · rw [if_neg hp, ih]
      simp [hp]

/-- Bridge between `List.countP` over `List.range` and `Finset` cardinality. -/
theorem countP_range_eq_card (n : ℕ) (p : ℕ → Prop) [DecidablePred p] :
    (List.range n).countP (fun l => p l) = ((Finset.range n).filter p).card := by
  induction n with
  | zero => simp
  | succ m ih =>
    rw [List.range_succ, List.countP_append, Finset.range_succ, Finset.filter_insert]
    by_cases h : p m
    · rw [if_pos h, Finset.card_insert_of_not_mem (by simp)]
      simp [h, ih]
    · rw [if_neg h]
      simp [h, ih]

namespace ElementRestriction

theorem countLoop_eval (r : ElementRestriction) (g : ℕ) :
    r.countLoop g = (List.range r.N).countP (fun l => r.cgid l + 1 = g) := by
  have := foldl_count_eval (fun l => r.cgid l + 1) (List.range r.N) (fun _ => 0) g
  simpa [countLoop] using this

theorem countLoop_zero (r : ElementRestriction) : r.countLoop 0 = 0 := by
  rw [countLoop_eval]
  simp

theorem countLoop_succ (r : ElementRestriction) (g : ℕ) :
    r.countLoop (g + 1) = r.cnt g := by
  rw [countLoop_eval, cnt, ← countP_range_eq_card]
  apply List.countP_congr
  intro a _
  simp

theorem sumLoop_eval (pre : ℕ → ℕ) (n : ℕ) :
    (∀ i ≤ n, sumLoop n pre i = ∑ j in Finset.range (i + 1), pre j) ∧
    (∀ i, n < i → sumLoop n pre i = pre i) := by
  induction n with
  | zero =>
    constructor
    · intro i hi
      interval_cases i
      simp [sumLoop]
    · intro i _
      simp [sumLoop]
  | succ m ih =>
    have step : sumLoop (m + 1) pre
        = Function.update (sumLoop m pre) (m + 1)
            (sumLoop m pre (m + 1) + sumLoop m pre m) := by
      simp [sumLoop, List.range_succ, List.foldl_append]
    constructor
    · intro i hi
      rcases Nat.lt_or_ge i (m + 1) with h | h
      · have hle : i ≤ m := by omega
        rw [step, Function.update_noteq (by omega)]
        exact ih.1 i hle
      · have hieq : i = m + 1 := by omega
        subst hieq
        rw [step, Function.update_same, ih.2 (m + 1) (by omega), ih.1 m le_rfl]
        have hs : ∑ j in Finset.range (m + 1 + 1), pre j
            = (∑ j in Finset.range (m + 1), pre j) + pre (m + 1) :=
          Finset.sum_range_succ pre (m + 1)
        omega
    · intro i hi
      rw [step, Function.update_noteq (by omega)]
      exact ih.2 i (by omega)

theorem offsets1_eval (r : ElementRestriction) :
    ∀ i ≤ r.ndofs, r.offsets1 i = ∑ g in Finset.range i, r.cnt g := by
  intro i hi
  have h1 := (sumLoop_eval r.countLoop r.ndofs).1 i hi
  rw [offsets1, h1, Finset.sum_range_succ']
  simp only [countLoop_succ, countLoop_zero, add_zero]

theorem offsets1_succ (r : ElementRestriction) (g : ℕ) (h : g < r.ndofs) :
    r.offsets1 (g + 1) = r.offsets1 g + r.cnt g := by
  rw [r.offsets1_eval (g + 1) (by omega), r.offsets1_eval g (by omega),
    Finset.sum_range_succ]

theorem offsets1_mono (r : ElementRestriction) (i j : ℕ) (hij : i ≤ j)
    (hj : j ≤ r.ndofs) : r.offsets1 i ≤ r.offsets1 j := by
  rw [r.offsets1_eval i (by omega), r.offsets1_eval j hj]
  exact Finset.sum_le_sum_of_subset (Finset.range_subset.2 hij)

theorem pgid_eq_cgid_phi (r : ElementRestriction) (l : ℕ) :
    r.pgid l = r.cgid (r.phi l) := rfl

theorem did_lt (r : ElementRestriction) (hM : r.ValidMap) (d : ℕ)
    (hd : d < r.dof) : r.did d < r.dof := by
  by_cases h : r.dofReorder
  · exact (hM h).1 d hd
  · simpa [did, h] using hd

theorem did_inj (r : ElementRestriction) (hM : r.ValidMap) (d₁ d₂ : ℕ)
    (h₁ : d₁ < r.dof) (h₂ : d₂ < r.dof) (h : r.did d₁ = r.did d₂) : d₁ = d₂ := by
  by_cases hr : r.dofReorder
  · exact (hM hr).2 d₁ h₁ d₂ h₂ h
  · simpa [did, hr] using h

theorem phi_lt (r : ElementRestriction) (hM : r.ValidMap) (l : ℕ)
    (hl : l < r.N) : r.phi l < r.N := by
  have hdof : 0 < r.dof := by
    rcases Nat.eq_zero_or_pos r.dof with h | h
    · simp [N, h] at hl
    · exact h
  have he : l / r.dof < r.ne := Nat.div_lt_of_lt_mul (by rw [mul_comm]; exact hl)
  have hd : r.did (l % r.dof) < r.dof := r.did_lt hM _ (Nat.mod_lt _ hdof)
  calc r.dof * (l / r.dof) + r.did (l % r.dof)
      < r.dof * (l / r.dof) + r.dof := by omega
    _ = r.dof * (l / r.dof + 1) := by ring
    _ ≤ r.dof * r.ne := Nat.mul_le_mul_left _ (by omega)
    _ = r.N := by rw [N, mul_comm]

theorem phi_inj (r : ElementRestriction) (hM : r.ValidMap) (l₁ l₂ : ℕ)
    (h₁ : l₁ < r.N) (h₂ : l₂ < r.N) (h : r.phi l₁ = r.phi l₂) : l₁ = l₂ := by
  have hdof : 0 < r.dof := by
    rcases Nat.eq_zero_or_pos r.dof with hh | hh
    · simp [N, hh] at h₁
    · exact hh
  have hd₁ : r.did (l₁ % r.dof) < r.dof := r.did_lt hM _ (Nat.mod_lt _ hdof)
  have hd₂ : r.did (l₂ % r.dof) < r.dof := r.did_lt hM _ (Nat.mod_lt _ hdof)
  unfold phi at h
  have hq : l₁ / r.dof = l₂ / r.dof := by
    rcases Nat.lt_trichotomy (l₁ / r.dof) (l₂ / r.dof) with hlt | heq | hgt
    · exfalso
      have hm : r.dof * (l₁ / r.dof + 1) ≤ r.dof * (l₂ / r.dof) :=
        Nat.mul_le_mul_left _ (by omega)
      rw [Nat.mul_add, Nat.mul_one] at hm
      omega
    · exact heq
    · exfalso
      have hm : r.dof * (l₂ / r.dof + 1) ≤ r.dof * (l₁ / r.dof) :=
        Nat.mul_le_mul_left _ (by omega)
      rw [Nat.mul_add, Nat.mul_one] at hm
      omega
  rw [hq] at h
  have hrem : r.did (l₁ % r.dof) = r.did (l₂ % r.dof) := by omega
  have hr : l₁ % r.dof = l₂ % r.dof :=
    r.did_inj hM _ _ (Nat.mod_lt _ hdof) (Nat.mod_lt _ hdof) hrem
  have e₁ := Nat.div_add_mod l₁ r.dof
  have e₂ := Nat.div_add_mod l₂ r.dof
  rw [hq, hr] at e₁
  omega

theorem phi_surj (r : ElementRestriction) (hM : r.ValidMap) (m : ℕ)
    (hm : m < r.N) : ∃ l < r.N, r.phi l = m := by
  have himg : (Finset.range r.N).image r.phi = Finset.range r.N := by
    apply Finset.eq_of_subset_of_card_le
    · intro x hx
      rcases Finset.mem_image.1 hx with ⟨l, hl, rfl⟩
      exact Finset.mem_range.2 (r.phi_lt hM l (Finset.mem_range.1 hl))
    · have hinj : Set.InjOn r.phi ↑(Finset.range r.N) := by
        intro a ha b hb hab
        exact r.phi_inj hM a b (Finset.mem_range.1 (Finset.mem_coe.1 ha))
          (Finset.mem_range.1 (Finset.mem_coe.1 hb)) hab
      rw [Finset.card_image_of_injOn hinj]
  have : m ∈ (Finset.range r.N).image r.phi := by
    rw [himg]; exact Finset.mem_range.2 hm
  rcases Finset.mem_image.1 this with ⟨l, hl, hphil⟩
  exact ⟨l, Finset.mem_range.1 hl, hphil⟩

theorem pgid_lt (r : ElementRestriction) (hG : r.ValidGids) (hM : r.ValidMap)
    (l : ℕ) (hl : l < r.N) : r.pgid l < r.ndofs := by
  rw [pgid_eq_cgid_phi]
  exact hG _ (r.phi_lt hM l hl)

theorem cntp_N_eq_cnt (r : ElementRestriction) (hM : r.ValidMap) (g : ℕ) :
    r.cntp r.N g = r.cnt g := by
  unfold cntp cnt
  apply Finset.card_bij (fun l _ => r.phi l)
  · intro a ha
    rcases Finset.mem_filter.1 ha with ⟨har, hag⟩
    exact Finset.mem_filter.2
      ⟨Finset.mem_range.2 (r.phi_lt hM a (Finset.mem_range.1 har)),
       by rw [← pgid_eq_cgid_phi]; exact hag⟩
  · intro a ha b hb hab
    rcases Finset.mem_filter.1 ha with ⟨har, _⟩
    rcases Finset.mem_filter.1 hb with ⟨hbr, _⟩
    exact r.phi_inj hM a b (Finset.mem_range.1 har) (Finset.mem_range.1 hbr) hab
  · intro b hb
    rcases Finset.mem_filter.1 hb with ⟨hbr, hbg⟩
    rcases r.phi_surj hM b (Finset.mem_range.1 hbr) with ⟨l, hl, hphil⟩
    refine ⟨l, Finset.mem_filter.2 ⟨Finset.mem_range.2 hl, ?_⟩, hphil⟩
    rw [pgid_eq_cgid_phi, hphil]
    exact hbg

theorem cntp_mono (r : ElementRestriction) (k₁ k₂ g : ℕ) (h : k₁ ≤ k₂) :
    r.cntp k₁ g ≤ r.cntp k₂ g :=
  Finset.card_le_card (Finset.filter_subset_filter _ (Finset.range_subset.2 h))

theorem cntp_succ (r : ElementRestriction) (k g : ℕ) :
    r.cntp (k + 1) g = r.cntp k g + (if r.pgid k = g then 1 else 0) := by
  unfold cntp
  rw [Finset.range_succ, Finset.filter_insert]
  by_cases h : r.pgid k = g
  · rw [if_pos h, if_pos h, Finset.card_insert_of_not_mem (by simp)]
  · rw [if_neg h, if_neg h, add_zero]

theorem cntp_lt_cnt (r : ElementRestriction) (hM : r.ValidMap) (l : ℕ)
    (hl : l < r.N) : r.cntp l (r.pgid l) < r.cnt (r.pgid l) := by
  have h1 : r.cntp l (r.pgid l) + 1 ≤ r.cntp (l + 1) (r.pgid l) := by
    rw [r.cntp_succ l (r.pgid l), if_pos rfl]
  have h2 : r.cntp (l + 1) (r.pgid l) ≤ r.cntp r.N (r.pgid l) :=
    r.cntp_mono _ _ _ (by omega)
  rw [r.cntp_N_eq_cnt hM] at h2
  omega

theorem pos_bounds (r : ElementRestriction) (hG : r.ValidGids) (hM : r.ValidMap)
    (l : ℕ) (hl : l < r.N) :
    r.offsets1 (r.pgid l) ≤ r.pos l ∧ r.pos l < r.offsets1 (r.pgid l + 1) := by
  constructor
  · exact Nat.le_add_right _ _
  · rw [r.offsets1_succ _ (r.pgid_lt hG hM l hl)]
    have := r.cntp_lt_cnt hM l hl
    unfold pos
    omega

theorem pos_inj (r : ElementRestriction) (hG : r.ValidGids) (hM : r.ValidMap)
    (l₁ l₂ : ℕ) (h₁ : l₁ < r.N) (h₂ : l₂ < r.N) (h : r.pos l₁ = r.pos l₂) :
    l₁ = l₂ := by
  by_cases hg : r.pgid l₁ = r.pgid l₂
  · -- same bucket: compare ranks
    by_contra hne
    unfold pos at h
    rw [← hg] at h
    have hc : r.cntp l₁ (r.pgid l₁) = r.cntp l₂ (r.pgid l₁) := by omega
    rcases Nat.lt_or_ge l₁ l₂ with hlt | hge
    · have hstep : r.cntp (l₁ + 1) (r.pgid l₁) = r.cntp l₁ (r.pgid l₁) + 1 := by
        rw [r.cntp_succ, if_pos rfl]
      have hmono : r.cntp (l₁ + 1) (r.pgid l₁) ≤ r.cntp l₂ (r.pgid l₁) :=
        r.cntp_mono _ _ _ (by omega)
      omega
    · have hlt₂ : l₂ < l₁ := by omega
      have hstep : r.cntp (l₂ + 1) (r.pgid l₁) = r.cntp l₂ (r.pgid l₁) + 1 := by
        rw [r.cntp_succ, if_pos hg.symm]
      have hmono : r.cntp (l₂ + 1) (r.pgid l₁) ≤ r.cntp l₁ (r.pgid l₁) :=
        r.cntp_mono _ _ _ (by omega)
      omega
  · -- distinct buckets: the half-open offset intervals are disjoint
    exfalso
    rcases r.pos_bounds hG hM l₁ h₁ with ⟨hb₁, hub₁⟩
    rcases r.pos_bounds hG hM l₂ h₂ with ⟨hb₂, hub₂⟩
    have hn₁ := r.pgid_lt hG hM l₁ h₁
    have hn₂ := r.pgid_lt hG hM l₂ h₂
    rcases Nat.lt_or_ge (r.pgid l₁) (r.pgid l₂) with hlt | hge
    · have : r.offsets1 (r.pgid l₁ + 1) ≤ r.offsets1 (r.pgid l₂) :=
        r.offsets1_mono _ _ (by omega) (by omega)
      omega
    · have hlt₂ : r.pgid l₂ < r.pgid l₁ := by omega
      have : r.offsets1 (r.pgid l₂ + 1) ≤ r.offsets1 (r.pgid l₁) :=
        r.offsets1_mono _ _ (by omega) (by omega)
      omega

theorem placeLoop_invariant (r : ElementRestriction) (hG : r.ValidGids)
    (hM : r.ValidMap) (k : ℕ) (hk : k ≤ r.N) :
    (∀ g, ((List.range k).foldl r.placeStep (r.offsets1, fun _ => 0)).1 g
        = r.offsets1 g + r.cntp k g) ∧
    (∀ l < k, ((List.range k).foldl r.placeStep (r.offsets1, fun _ => 0)).2 (r.pos l)
        = r.wval l) := by
  induction k with
  | zero =>
    constructor
    · intro g
      simp [cntp]
    · intro l hl
      omega
  | succ m ih =>
    have hm : m ≤ r.N := by omega
    obtain ⟨ih1, ih2⟩ := ih hm
    have step : (List.range (m + 1)).foldl r.placeStep (r.offsets1, fun _ => 0)
        = r.placeStep ((List.range m).foldl r.placeStep (r.offsets1, fun _ => 0)) m := by
      rw [List.range_succ, List.foldl_append, List.foldl_cons, List.foldl_nil]
    set st := (List.range m).foldl r.placeStep (r.offsets1, fun _ => 0) with hst
    have hposm : st.1 (r.pgid m) = r.pos m := by
      rw [ih1]
      rfl
    constructor
    · intro g
      rw [step]
      show (Function.update st.1 (r.pgid m) (st.1 (r.pgid m) + 1)) g = _
      by_cases hgm : r.pgid m = g
      · subst hgm
        rw [Function.update_same, ih1, r.cntp_succ, if_pos rfl]
        omega
      · rw [Function.update_noteq (Ne.symm hgm), ih1, r.cntp_succ, if_neg hgm]
        omega
    · intro l hl
      rw [step]
      show (Function.update st.2 (st.1 (r.pgid m)) (r.wval m)) (r.pos l) = _
      rw [hposm]
      by_cases hlm : l = m
      · subst hlm
        rw [Function.update_same]
      · have hne : r.pos l ≠ r.pos m := fun hc =>
          hlm (r.pos_inj hG hM l m (by omega) (by omega) hc)
        rw [Function.update_noteq hne]
        exact ih2 l (by omega)

theorem placeLoop_fst (r : ElementRestriction) (hG : r.ValidGids)
    (hM : r.ValidMap) (g : ℕ) :
    r.placeLoop.1 g = r.offsets1 g + r.cntp r.N g :=
  (r.placeLoop_invariant hG hM r.N le_rfl).1 g

theorem indices_at_pos (r : ElementRestriction) (hG : r.ValidGids)
    (hM : r.ValidMap) (l : ℕ) (hl : l < r.N) :
    r.indices (r.pos l) = r.wval l :=
  (r.placeLoop_invariant hG hM r.N le_rfl).2 l hl

theorem shiftLoop_eval (n : ℕ) (off : ℕ → ℕ) (j : ℕ) :
    shiftLoop n off j = if j = 0 then 0 else if j ≤ n then off (j - 1) else off j := by
  have inner : ∀ (n : ℕ) (off : ℕ → ℕ) (j : ℕ),
      ((List.range n).reverse.foldl (fun o i => Function.update o (i + 1) (o i)) off) j
        = if 1 ≤ j ∧ j ≤ n then off (j - 1) else off j := by
    intro n
    induction n with
    | zero =>
      intro off j
      simp only [List.range_zero, List.reverse_nil, List.foldl_nil]
      rw [if_neg (by omega)]
    | succ m ih =>
      intro off j
      have hrev : (List.range (m + 1)).reverse
          = m :: (List.range m).reverse := by
        rw [List.range_succ, List.reverse_append]
        simp
      rw [hrev, List.foldl_cons, ih]
      by_cases hj1 : 1 ≤ j ∧ j ≤ m
      · rw [if_pos hj1, if_pos (by omega)]
        rw [Function.update_noteq (by omega)]
      · by_cases hj2 : j = m + 1
        · subst hj2
          rw [if_neg hj1, Function.update_same, if_pos (by omega)]
          norm_num
        · rw [if_neg hj1, Function.update_noteq (by omega), if_neg (by omega)]
  unfold shiftLoop
  by_cases hj0 : j = 0
  · subst hj0
    rw [Function.update_same, if_pos rfl]
  · rw [Function.update_noteq hj0, inner, if_neg hj0]
    by_cases hj : j ≤ n
    · rw [if_pos (by omega), if_pos hj]
    · rw [if_neg (by omega), if_neg hj]

theorem offsets_eval (r : ElementRestriction) (hG : r.ValidGids)
    (hM : r.ValidMap) (i : ℕ) (hi : i ≤ r.ndofs) :
    r.offsets i = r.offsets1 i := by
  unfold offsets
  rw [shiftLoop_eval]
  by_cases h0 : i = 0
  · subst h0
    rw [if_pos rfl, r.offsets1_eval 0 (by omega)]
    simp
  · rw [if_neg h0, if_pos hi, r.placeLoop_fst hG hM, r.cntp_N_eq_cnt hM]
    have h1 : i - 1 < r.ndofs := by omega
    have := r.offsets1_succ (i - 1) h1
    have hi1 : i - 1 + 1 = i := by omega
    rw [hi1] at this
    omega

theorem decodeU_wval (r : ElementRestriction) (l : ℕ) :
    decodeU (r.wval l) = l := by
  unfold wval
  by_cases h : r.plusP l
  · rw [if_pos h, decodeU]
    simp
  · rw [if_neg h, decodeU]
    rw [if_neg (by omega)]
    omega

theorem decodeU_gatherMap (r : ElementRestriction) (l : ℕ) :
    decodeU (r.gatherMap l) = r.pgid l := by
  unfold gatherMap
  by_cases h : r.plusP l
  · rw [if_pos h, decodeU]
    simp
  · rw [if_neg h, decodeU]
    rw [if_neg (by omega)]
    omega

theorem wval_sign_eq_gatherMap_sign (r : ElementRestriction) (l : ℕ) :
    decodeSgn (r.wval l) = decodeSgn (r.gatherMap l) := by
  unfold wval gatherMap decodeSgn
  by_cases h : r.plusP l
  · rw [if_pos h, if_pos h, if_pos (by positivity), if_pos (by positivity)]
  · rw [if_neg h, if_neg h, if_neg (by omega), if_neg (by omega)]

theorem bucket_surj (r : ElementRestriction) (hG : r.ValidGids)
    (hM : r.ValidMap) (g : ℕ) (hg : g < r.ndofs) (j : ℕ)
    (hj1 : r.offsets1 g ≤ j) (hj2 : j < r.offsets1 (g + 1)) :
    ∃ l < r.N, r.pgid l = g ∧ r.pos l = j := by
  classical
  set S := (Finset.range r.N).filter (fun l => r.pgid l = g) with hS
  have hinj : Set.InjOn r.pos ↑S := by
    intro a ha b hb hab
    have ha' := Finset.mem_filter.1 (Finset.mem_coe.1 ha)
    have hb' := Finset.mem_filter.1 (Finset.mem_coe.1 hb)
    exact r.pos_inj hG hM a b (Finset.mem_range.1 ha'.1) (Finset.mem_range.1 hb'.1) hab
  have hsub : S.image r.pos ⊆ Finset.Ico (r.offsets1 g) (r.offsets1 (g + 1)) := by
    intro x hx
    rcases Finset.mem_image.1 hx with ⟨l, hl, rfl⟩
    rcases Finset.mem_filter.1 hl with ⟨hlr, hlg⟩
    have := r.pos_bounds hG hM l (Finset.mem_range.1 hlr)
    rw [hlg] at this
    exact Finset.mem_Ico.2 this
  have hcard : (Finset.Ico (r.offsets1 g) (r.offsets1 (g + 1))).card
      ≤ (S.image r.pos).card := by
    rw [Finset.card_image_of_injOn hinj, Nat.card_Ico]
    have : S.card = r.cntp r.N g := rfl
    rw [this, r.cntp_N_eq_cnt hM, r.offsets1_succ g hg]
    omega
  have heq : S.image r.pos = Finset.Ico (r.offsets1 g) (r.offsets1 (g + 1)) :=
    Finset.eq_of_subset_of_card_le hsub hcard
  have hjmem : j ∈ S.image r.pos := by
    rw [heq]
    exact Finset.mem_Ico.2 ⟨hj1, hj2⟩
  rcases Finset.mem_image.1 hjmem with ⟨l, hl, hpos⟩
  rcases Finset.mem_filter.1 hl with ⟨hlr, hlg⟩
  exact ⟨l, Finset.mem_range.1 hlr, hlg, hpos⟩

end ElementRestriction

/-- Splitting a list at a member, with unique-key side conditions,
evaluates a `writeFold` at that key. -/
theorem writeFold_eval_nodup {α β γ : Type} [DecidableEq γ] (key : α → γ)
    (val : α → β → β) (L : List α) (a : α) (y : γ → β)
    (hnd : L.Nodup) (ha : a ∈ L)
    (hkey : ∀ b ∈ L, key b = key a → b = a) :
    writeFold key val L y (key a) = val a (y (key a)) := by
  rcases List.append_of_mem ha with ⟨L₁, L₂, rfl⟩
  have hnotmem₁ : a ∉ L₁ := by
    intro hmem
    have := List.disjoint_of_nodup_append hnd hmem (List.mem_cons_self a L₂)
    exact this
  have hnotmem₂ : a ∉ L₂ := by
    have := (List.nodup_append.1 hnd).2.1
    exact (List.nodup_cons.1 this).1
  apply writeFold_eval
  · intro b hb hbk
    have hba : b = a := hkey b (by simp [hb]) hbk
    exact hnotmem₁ (hba ▸ hb)
  · intro b hb hbk
    have hba : b = a := hkey b (by simp [hb]) hbk
    exact hnotmem₂ (hba ▸ hb)

theorem mem_pairList (n m : ℕ) (p : ℕ × ℕ) :
    p ∈ pairList n m ↔ p.1 < n ∧ p.2 < m := by
  cases p with
  | mk i c =>
    simp only [pairList, List.mem_flatMap, List.mem_map, List.mem_range,
      Prod.mk.injEq]
    constructor
    · rintro ⟨i', hi', c', hc', h1, h2⟩
      subst h1; subst h2
      exact ⟨hi', hc'⟩
    · rintro ⟨hi, hc⟩
      exact ⟨i, hi, c, hc, rfl, rfl⟩

theorem nodup_pairList (n m : ℕ) : (pairList n m).Nodup := by
  apply List.nodup_flatMap.2
  constructor
  · intro i _
    exact (List.nodup_range m).map (fun a b h => by injection h)
  · apply List.Pairwise.imp ?_ (List.nodup_range n)
    intro i j hij
    intro p hp hq
    rcases List.mem_map.1 hp with ⟨c, _, rfl⟩
    rcases List.mem_map.1 hq with ⟨c', _, hc'⟩
    injection hc' with h1 _
    exact hij h1.symm

/-- Two-digit positional encoding is injective in both digits. -/
theorem encode2_inj (B a a' q q' : ℕ) (ha : a < B) (ha' : a' < B)
    (h : a + B * q = a' + B * q') : a = a' ∧ q = q' := by
  have h1 : (a + B * q) % B = a := by
    rw [Nat.add_mul_mod_self_left]
    exact Nat.mod_eq_of_lt ha
  have h2 : (a' + B * q') % B = a' := by
    rw [Nat.add_mul_mod_self_left]
    exact Nat.mod_eq_of_lt ha'
  have haa : a = a' := by rw [← h1, ← h2, h]
  refine ⟨haa, ?_⟩
  have hB : 0 < B := by omega
  have : B * q = B * q' := by omega
  exact Nat.eq_of_mul_eq_mul_left hB this

namespace ElementRestriction

theorem lflat_inj (r : ElementRestriction) (d c e d' c' e' : ℕ)
    (hd : d < r.dof) (hc : c < r.vdim) (hd' : d' < r.dof) (hc' : c' < r.vdim)
    (h : r.lflat d c e = r.lflat d' c' e') : d = d' ∧ c = c' ∧ e = e' := by
  unfold lflat at h
  obtain ⟨h1, h2⟩ := encode2_inj r.dof d d' _ _ hd hd' h
  obtain ⟨h3, h4⟩ := encode2_inj r.vdim c c' _ _ hc hc' h2
  exact ⟨h1, h3, h4⟩

theorem gflat_inj (r : ElementRestriction) (j c j' c' : ℕ)
    (hj : j < r.ndofs) (hc : c < r.vdim) (hj' : j' < r.ndofs) (hc' : c' < r.vdim)
    (h : r.gflat j c = r.gflat j' c') : j = j' ∧ c = c' := by
  unfold gflat at h
  by_cases hb : r.byvdim
  · rw [if_pos hb, if_pos hb] at h
    obtain ⟨h1, h2⟩ := encode2_inj r.vdim c c' _ _ hc hc' h
    exact ⟨h2, h1⟩
  · rw [if_neg hb, if_neg hb] at h
    exact encode2_inj r.ndofs j j' _ _ hj hj' h

/-- C1: `Mult` (Scatter) writes, exactly once and with no accumulation, each
local entry `(d,c,e)` to `sign(e,d) · global[gid(e,d), c]`, where `gid` and
`sign` are decoded from `gatherMap[e*dof+d]`. -/
theorem Mult_scatter (r : ElementRestriction) (x y : ℕ → ℤ) :
    ∀ e < r.ne, ∀ d < r.dof, ∀ c < r.vdim,
      (r.Mult x y (r.lflat d c e)
        = decodeSgn (r.gatherMap (e * r.dof + d))
            * x (r.gflat (decodeU (r.gatherMap (e * r.dof + d))) c)) ∧
      (∀ e' < r.ne, ∀ d' < r.dof, ∀ c' < r.vdim,
        r.lflat d' c' e' = r.lflat d c e → e' = e ∧ d' = d ∧ c' = c) := by
  intro e he d hd c hc
  have hdof : 0 < r.dof := by omega
  have hi : e * r.dof + d < r.dof * r.ne := by
    calc e * r.dof + d < e * r.dof + r.dof := by omega
      _ = (e + 1) * r.dof := by ring
      _ ≤ r.ne * r.dof := Nat.mul_le_mul_right _ (by omega)
      _ = r.dof * r.ne := by ring
  have hrw : e * r.dof + d = d + r.dof * e := by ring
  have hmod : (e * r.dof + d) % r.dof = d := by
    rw [hrw, Nat.add_mul_mod_self_left]
    exact Nat.mod_eq_of_lt hd
  have hdiv : (e * r.dof + d) / r.dof = e := by
    rw [hrw, Nat.add_mul_div_left _ _ hdof, Nat.div_eq_of_lt hd]
    omega
  constructor
  · have hkey : (fun p : ℕ × ℕ => r.lflat (p.1 % r.dof) p.2 (p.1 / r.dof))
        ((e * r.dof + d, c) : ℕ × ℕ) = r.lflat d c e := by
      simp only [hmod, hdiv]
    have := writeFold_eval_nodup
      (fun p : ℕ × ℕ => r.lflat (p.1 % r.dof) p.2 (p.1 / r.dof))
      (fun p _ =>
        let gid := r.gatherMap p.1
        let j := decodeU gid
        if 0 ≤ gid then x (r.gflat j p.2) else -(x (r.gflat j p.2)))
      (pairList (r.dof * r.ne) r.vdim) (e * r.dof + d, c) y
      (nodup_pairList _ _)
      ((mem_pairList _ _ _).2 ⟨hi, hc⟩)
      ?_
    · rw [hkey] at this
      unfold Mult
      rw [this]
      by_cases hp : 0 ≤ r.gatherMap (e * r.dof + d)
      · simp [decodeSgn, hp]
      · simp [decodeSgn, hp]
    · intro b hb hbk
      have hbmem := (mem_pairList _ _ b).1 hb
      have hb1 : b.1 % r.dof < r.dof := Nat.mod_lt _ hdof
      have hb2 : b.1 / r.dof < r.ne := Nat.div_lt_of_lt_mul hbmem.1
      have hbk' : r.lflat (b.1 % r.dof) b.2 (b.1 / r.dof) = r.lflat d c e := by
        simpa [hmod, hdiv] using hbk
      obtain ⟨h1, h2, h3⟩ := r.lflat_inj _ _ _ _ _ _ hb1 hbmem.2 hd hc hbk'
      have hb0 : b.1 = e * r.dof + d := by
        have := Nat.div_add_mod b.1 r.dof
        rw [h1, h3] at this
        omega
      cases b with
      | mk b1 b2 =>
        simp only at hb0 h2
        rw [hb0, h2]
  · intro e' he' d' hd' c' hc' hfl
    obtain ⟨h1, h2, h3⟩ := r.lflat_inj _ _ _ _ _ _ hd' hc' hd hc hfl
    exact ⟨h3, h1, h2⟩

/-- C2: `MultTranspose` (GatherTranspose) assigns each global output entry
`(gid, c)` the sum, over its bucket `offsets[gid] ≤ j < offsets[gid+1]` of
`indices`, of `sign(j)` times the local value at the decoded slot,
negative-encoded entries contributing with sign `-1`. -/
theorem MultTranspose_gather (r : ElementRestriction) (x y : ℕ → ℤ) :
    ∀ i < r.ndofs, ∀ c < r.vdim,
      r.MultTranspose x y (r.gflat i c)
        = ∑ j in Finset.Ico (r.offsets i) (r.offsets (i + 1)),
            decodeSgn (r.indices j)
              * x (r.lflat (decodeU (r.indices j) % r.dof) c
                    (decodeU (r.indices j) / r.dof)) := by
  intro i hi c hc
  have := writeFold_eval_nodup
    (fun p : ℕ × ℕ => r.gflat p.1 p.2)
    (fun p _ =>
      let offset := r.offsets p.1
      let nextOffset := r.offsets (p.1 + 1)
      (List.range (nextOffset - offset)).foldl
        (fun acc t =>
          let idx := r.indices (offset + t)
          let idx_j := decodeU idx
          acc + (if 0 ≤ idx then x (r.lflat (idx_j % r.dof) p.2 (idx_j / r.dof))
                 else -(x (r.lflat (idx_j % r.dof) p.2 (idx_j / r.dof)))))
        0)
    (pairList r.ndofs r.vdim) (i, c) y
    (nodup_pairList _ _)
    ((mem_pairList _ _ _).2 ⟨hi, hc⟩)
    ?_
  · unfold MultTranspose
    rw [this]
    simp only
    rw [foldl_add_eq_sum, zero_add]
    rw [Finset.sum_Ico_eq_sum_range]
    apply Finset.sum_congr rfl
    intro t _
    by_cases hp : 0 ≤ r.indices (r.offsets i + t)
    · simp [decodeSgn, hp]
    · simp [decodeSgn, hp]
  · intro b hb hbk
    have hbmem := (mem_pairList _ _ b).1 hb
    have hbk' : r.gflat b.1 b.2 = r.gflat i c := by simpa using hbk
    obtain ⟨h1, h2⟩ := r.gflat_inj _ _ _ _ hbmem.1 hbmem.2 hi hc hbk'
    cases b with
    | mk b1 b2 =>
      simp only at h1 h2
      rw [h1, h2]

theorem offsets1_zero (r : ElementRestriction) : r.offsets1 0 = 0 := by
  rw [r.offsets1_eval 0 (by omega)]
  simp

theorem offsets1_top (r : ElementRestriction) (hG : r.ValidGids) :
    r.offsets1 r.ndofs = r.N := by
  rw [r.offsets1_eval r.ndofs le_rfl]
  have h := Finset.card_eq_sum_card_fiberwise
    (f := r.cgid) (s := Finset.range r.N) (t := Finset.range r.ndofs)
    (fun x hx => Finset.mem_range.2 (hG x (Finset.mem_range.1 hx)))
  rw [Finset.card_range] at h
  unfold cnt
  exact h.symm

end ElementRestriction

/-- Any value strictly between `f 0` and `f n` falls in some step interval of
`f`. -/
theorem exists_bucket (f : ℕ → ℕ) (n j : ℕ) (h0 : f 0 ≤ j) (hn : j < f n) :
    ∃ g < n, f g ≤ j ∧ j < f (g + 1) := by
  induction n with
  | zero => omega
  | succ m ih =>
    by_cases h : j < f m
    · rcases ih h with ⟨g, hg, h1, h2⟩
      exact ⟨g, by omega, h1, h2⟩
    · exact ⟨m, by omega, by omega, hn⟩

namespace ElementRestriction

theorem pos_cover (r : ElementRestriction) (hG : r.ValidGids) (hM : r.ValidMap)
    (j : ℕ) (hj : j < r.N) : ∃ l < r.N, r.pos l = j := by
  obtain ⟨g, hg, h1, h2⟩ := exists_bucket r.offsets1 r.ndofs j
    (by rw [r.offsets1_zero]; omega) (by rw [r.offsets1_top hG]; omega)
  obtain ⟨l, hl, _, hpos⟩ := r.bucket_surj hG hM g hg j h1 h2
  exact ⟨l, hl, hpos⟩

/-- C3: after the constructor completes, `offsets` is monotonically
non-decreasing with `offsets[0] = 0` and `offsets[ndofs] = ne*dof`, and the
unsigned decodings of the entries of `indices` form a permutation of
`[0, ne*dof)`: every local slot appears in exactly one bucket, namely the
bucket of the unsigned global DOF id that its `gatherMap` entry decodes to. -/
theorem construction_invariants (r : ElementRestriction)
    (hG : r.ValidGids) (hM : r.ValidMap) :
    r.offsets 0 = 0 ∧
    (∀ i < r.ndofs, r.offsets i ≤ r.offsets (i + 1)) ∧
    r.offsets r.ndofs = r.N ∧
    (∀ l < r.N,
      ∃ j, (r.offsets (decodeU (r.gatherMap l)) ≤ j
             ∧ j < r.offsets (decodeU (r.gatherMap l) + 1)
             ∧ decodeU (r.indices j) = l)
        ∧ ∀ j' < r.N, decodeU (r.indices j') = l → j' = j) := by
  refine ⟨?_, ?_, ?_, ?_⟩
  · rw [r.offsets_eval hG hM 0 (by omega), r.offsets1_zero]
  · intro i hi
    rw [r.offsets_eval hG hM i (by omega), r.offsets_eval hG hM (i + 1) (by omega)]
    exact r.offsets1_mono i (i + 1) (by omega) (by omega)
  · rw [r.offsets_eval hG hM r.ndofs le_rfl, r.offsets1_top hG]
  · intro l hl
    have hp := r.pgid_lt hG hM l hl
    have hb := r.pos_bounds hG hM l hl
    refine ⟨r.pos l, ⟨?_, ?_, ?_⟩, ?_⟩
    · rw [r.decodeU_gatherMap, r.offsets_eval hG hM _ (by omega)]
      exact hb.1
    · rw [r.decodeU_gatherMap, r.offsets_eval hG hM _ (by omega)]
      exact hb.2
    · rw [r.indices_at_pos hG hM l hl, r.decodeU_wval]
    · intro j' hj' hdec
      obtain ⟨l', hl', hpos'⟩ := r.pos_cover hG hM j' hj'
      rw [← hpos', r.indices_at_pos hG hM l' hl', r.decodeU_wval] at hdec
      rw [← hpos', hdec]

end ElementRestriction

theorem decodeSgn_sq (s : ℤ) : (decodeSgn s : ℤ) * (decodeSgn s : ℤ) = 1 := by
  unfold decodeSgn
  by_cases h : 0 ≤ s
  · simp [h]
  · simp [h]

namespace ElementRestriction

/-- Scatter-then-gather round trip: each global output entry is the input
entry scaled by the multiplicity of that DOF in the element-to-dof table
(signs cancel because `indices` and `gatherMap` encode the same sign). -/
theorem roundtrip (r : ElementRestriction) (hG : r.ValidGids) (hM : r.ValidMap)
    (x y₀ y₁ : ℕ → ℤ) (g c : ℕ) (hg : g < r.ndofs) (hc : c < r.vdim) :
    r.MultTranspose (r.Mult x y₀) y₁ (r.gflat g c)
      = (r.cnt g : ℤ) * x (r.gflat g c) := by
  rw [r.MultTranspose_gather (r.Mult x y₀) y₁ g hg c hc]
  have hoff : r.offsets g = r.offsets1 g := r.offsets_eval hG hM g (by omega)
  have hoff1 : r.offsets (g + 1) = r.offsets1 (g + 1) :=
    r.offsets_eval hG hM (g + 1) (by omega)
  have hterm : ∀ j ∈ Finset.Ico (r.offsets g) (r.offsets (g + 1)),
      (decodeSgn (r.indices j) : ℤ)
        * (r.Mult x y₀) (r.lflat (decodeU (r.indices j) % r.dof) c
            (decodeU (r.indices j) / r.dof))
      = x (r.gflat g c) := by
    intro j hj
    rcases Finset.mem_Ico.1 hj with ⟨hj1, hj2⟩
    rw [hoff] at hj1
    rw [hoff1] at hj2
    obtain ⟨l, hl, hpg, hpos⟩ := r.bucket_surj hG hM g hg j hj1 hj2
    have hidx : r.indices j = r.wval l := by
      rw [← hpos]
      exact r.indices_at_pos hG hM l hl
    have hdec : decodeU (r.indices j) = l := by rw [hidx, r.decodeU_wval]
    have hdof : 0 < r.dof := by
      rcases Nat.eq_zero_or_pos r.dof with h0 | h0
      · exfalso
        have hN : r.N = 0 := by rw [N, h0, mul_zero]
        omega
      · exact h0
    have hdlt : l % r.dof < r.dof := Nat.mod_lt _ hdof
    have hlN : l < r.dof * r.ne := by
      have := hl
      rw [N, mul_comm] at this
      exact this
    have helt : l / r.dof < r.ne := Nat.div_lt_of_lt_mul hlN
    have hms := (r.Mult_scatter x y₀ (l / r.dof) helt (l % r.dof) hdlt c hc).1
    have hidx2 : l / r.dof * r.dof + l % r.dof = l := by
      have hdm := Nat.div_add_mod l r.dof
      have hcomm : l / r.dof * r.dof = r.dof * (l / r.dof) := mul_comm _ _
      omega
    rw [hidx2] at hms
    rw [hdec, hms, hidx, r.wval_sign_eq_gatherMap_sign, r.decodeU_gatherMap, hpg]
    rw [← mul_assoc, decodeSgn_sq, one_mul]
  rw [Finset.sum_congr rfl hterm]
  rw [Finset.sum_const, Nat.card_Ico, hoff, hoff1, r.offsets1_succ g hg,
    Nat.add_sub_cancel_left, nsmul_eq_mul]

end ElementRestriction

theorem er2_sanity : ER2.offsets 0 = 0 ∧ ER2.offsets 1 = 1 ∧ ER2.offsets 2 = 3
    ∧ ER2.offsets 3 = 4 ∧ decodeU (ER2.indices 1) = 1 ∧ decodeU (ER2.indices 2) = 2 := by
  decide

/-- C1: for every constructed `ElementRestriction` and every global input
vector, `Mult` (Scatter) sets local entry `(d,c,e)` to `sign(e,d)` times the
global entry of DOF `gid(e,d)` at component `c`, with `gid`/`sign` decoded
from `gatherMap[e*dof+d]`; no accumulation occurs (the result is independent
of the prior output contents `y`) and each output entry is written exactly
once (distinct in-range `(d,c,e)` target distinct entries). -/
theorem c1_element_scatter (r : ElementRestriction) (x y : ℕ → ℤ) :
    ∀ e < r.ne, ∀ d < r.dof, ∀ c < r.vdim,
      (r.Mult x y (r.lflat d c e)
        = decodeSgn (r.gatherMap (e * r.dof + d))
            * x (r.gflat (decodeU (r.gatherMap (e * r.dof + d))) c)) ∧
      (∀ e' < r.ne, ∀ d' < r.dof, ∀ c' < r.vdim,
        r.lflat d' c' e' = r.lflat d c e → e' = e ∧ d' = d ∧ c' = c) :=
  r.Mult_scatter x y

/-- Closed instance of C1 on the two-segment mesh `ER2`. -/
theorem c1_element_scatter_witness :
    0 < ER2.ne ∧ 0 < ER2.dof ∧ 0 < ER2.vdim ∧
    ER2.Mult x2 y2 (ER2.lflat 0 0 0)
      = decodeSgn (ER2.gatherMap (0 * ER2.dof + 0))
          * x2 (ER2.gflat (decodeU (ER2.gatherMap (0 * ER2.dof + 0))) 0) :=
  ⟨by decide, by decide, by decide,
    (c1_element_scatter ER2 x2 y2 0 (by decide) 0 (by decide) 0 (by decide)).1⟩

/-- C2: for every constructed `ElementRestriction` and local input, the
GatherTranspose assigns global output entry `(gid, c)` the sum over the
bucket `offsets[gid] ≤ j < offsets[gid+1]` of `indices` of `sign(j)` times
the local value at the decoded slot; a negative-encoded entry contributes
with sign `-1`. -/
theorem c2_element_gather_transpose (r : ElementRestriction) (x y : ℕ → ℤ) :
    ∀ i < r.ndofs, ∀ c < r.vdim,
      r.MultTranspose x y (r.gflat i c)
        = ∑ j in Finset.Ico (r.offsets i) (r.offsets (i + 1)),
            decodeSgn (r.indices j)
              * x (r.lflat (decodeU (r.indices j) % r.dof) c
                    (decodeU (r.indices j) / r.dof)) :=
  r.MultTranspose_gather x y

/-- Closed instance of C2 on `ER2`, at the shared DOF 1. -/
theorem c2_element_gather_transpose_witness :
    1 < ER2.ndofs ∧ 0 < ER2.vdim ∧
    ER2.MultTranspose x2 y2 (ER2.gflat 1 0)
      = ∑ j in Finset.Ico (ER2.offsets 1) (ER2.offsets (1 + 1)),
          decodeSgn (ER2.indices j)
            * x2 (ER2.lflat (decodeU (ER2.indices j) % ER2.dof) 0
                  (decodeU (ER2.indices j) / ER2.dof)) :=
  ⟨by decide, by decide,
    c2_element_gather_transpose ER2 x2 y2 1 (by decide) 0 (by decide)⟩

/-- C3: after the constructor completes, `offsets` is monotonically
non-decreasing with `offsets[0] = 0` and `offsets[ndofs] = ne*dof`, and the
unsigned decodings of the entries of `indices` form a permutation of
`[0, ne*dof)`: every local slot appears in exactly one bucket, namely the
bucket of the unsigned DOF id its `gatherMap` entry decodes to.  The
hypotheses are the constructor's preconditions: the element-to-dof table
decodes into `[0, ndofs)` and, under lexicographic reordering, `dof_map`
decodes to a permutation of `[0, dof)`. -/
theorem c3_offsets_invariant (r : ElementRestriction)
    (hG : r.ValidGids) (hM : r.ValidMap) :
    r.offsets 0 = 0 ∧
    (∀ i < r.ndofs, r.offsets i ≤ r.offsets (i + 1)) ∧
    r.offsets r.ndofs = r.N ∧
    (∀ l < r.N,
      ∃ j, (r.offsets (decodeU (r.gatherMap l)) ≤ j
             ∧ j < r.offsets (decodeU (r.gatherMap l) + 1)
             ∧ decodeU (r.indices j) = l)
        ∧ ∀ j' < r.N, decodeU (r.indices j') = l → j' = j) :=
  r.construction_invariants hG hM

/-- Closed instance of C3 on `ER2`. -/
theorem c3_offsets_invariant_witness :
    ER2.ValidGids ∧ ER2.ValidMap ∧
    (ER2.offsets 0 = 0 ∧ ER2.offsets ER2.ndofs = ER2.N) := by
  refine ⟨?_, ?_, ?_, ?_⟩
  · decide
  · decide
  · exact (c3_offsets_invariant ER2 (by decide) (by decide)).1
  · exact (c3_offsets_invariant ER2 (by decide) (by decide)).2.2.1

/-- C4 counterexample: on the 2×2 order-2 scenario, `GatherTranspose ∘
Scatter` does NOT reproduce `x` at the central node (DOF 12, shared by all
four elements): it quadruples it.  So `MultTranspose (Mult x) = x` fails. -/
theorem c4_roundtrip_counterexample :
    ER22.MultTranspose (ER22.Mult x22 (fun _ => 0)) (fun _ => 0)
        (ER22.gflat 12 0)
      ≠ x22 (ER22.gflat 12 0) := by
  set_option maxRecDepth 100000 in decide

/-- C4 amended: on the 2×2 quadrilateral order-2 scenario (`ne = 4`,
`dof = 9`, `ndofs = 25`), `GatherTranspose (Scatter x)` reproduces each node
value scaled by the node's multiplicity (the number of element-local slots
holding that DOF: 4 at the centre, 2 on shared edges, 1 elsewhere); it
equals `x` exactly at the nodes owned by a single element. -/
theorem c4_roundtrip_amended (x y₀ y₁ : ℕ → ℤ) (g : ℕ) (hg : g < 25) :
    ER22.MultTranspose (ER22.Mult x y₀) y₁ (ER22.gflat g 0)
      = (ER22.cnt g : ℤ) * x (ER22.gflat g 0) :=
  ER22.roundtrip (by decide) (by decide) x y₀ y₁ g 0 hg (by decide)

/-- Closed instance of the amended C4 at the centre node: the round trip
returns `4 * x`, and the multiplicity there is indeed 4. -/
theorem c4_roundtrip_amended_witness :
    12 < 25 ∧
    (ER22.MultTranspose (ER22.Mult x22 (fun _ => 0)) (fun _ => 0)
        (ER22.gflat 12 0)
      = (ER22.cnt 12 : ℤ) * x22 (ER22.gflat 12 0)) ∧ ER22.cnt 12 = 4 :=
  ⟨by decide, c4_roundtrip_amended x22 (fun _ => 0) (fun _ => 0) 12 (by decide),
   by decide⟩

/-- C10: `PermuteDFaceDNorm2D` is extensionally equal to `PermuteFace2D`,
and consequently `PermuteDFaceDNormL2` and `PermuteFaceL2` agree on every
2D input. -/
theorem c10_permute_dface_dnorm_equiv :
    (∀ face_id1 face_id2 orientation size1d index : ℤ,
      PermuteDFaceDNorm2D face_id1 face_id2 orientation size1d index
        = PermuteFace2D face_id1 face_id2 orientation size1d index) ∧
    (∀ face_id1 face_id2 orientation size1d index : ℤ,
      PermuteDFaceDNormL2 2 face_id1 face_id2 orientation size1d index
        = PermuteFaceL2 2 face_id1 face_id2 orientation size1d index) := by
  constructor
  · intro f1 f2 o s i
    rfl
  · intro f1 f2 o s i
    show PermuteDFaceDNormL2 2 f1 f2 o s i = PermuteFaceL2 2 f1 f2 o s i
    unfold PermuteDFaceDNormL2 PermuteFaceL2
    norm_num
    rfl

/-- On a finite integer interval, an injective self-map is a bijection. -/
theorem bijOn_Ico_of_mapsTo_injOn (f : ℤ → ℤ) (b : ℤ)
    (hm : ∀ x, 0 ≤ x → x < b → 0 ≤ f x ∧ f x < b)
    (hi : ∀ x y, 0 ≤ x → x < b → 0 ≤ y → y < b → f x = f y → x = y) :
    Set.BijOn f (Set.Ico 0 b) (Set.Ico 0 b) := by
  have hmt : Set.MapsTo f (Set.Ico 0 b) (Set.Ico 0 b) := by
    intro x hx
    rcases Set.mem_Ico.1 hx with ⟨h1, h2⟩
    exact Set.mem_Ico.2 (hm x h1 h2)
  have hinj : Set.InjOn f (Set.Ico 0 b) := by
    intro x hx y hy h
    rcases Set.mem_Ico.1 hx with ⟨h1, h2⟩
    rcases Set.mem_Ico.1 hy with ⟨h3, h4⟩
    exact hi x y h1 h2 h3 h4 h
  refine ⟨hmt, hinj, ?_⟩
  have himg : (Finset.Ico (0 : ℤ) b).image f = Finset.Ico (0 : ℤ) b := by
    apply Finset.eq_of_subset_of_card_le
    · intro z hz
      rcases Finset.mem_image.1 hz with ⟨x, hx, rfl⟩
      rcases Finset.mem_Ico.1 hx with ⟨h1, h2⟩
      exact Finset.mem_Ico.2 (hm x h1 h2)
    · rw [Finset.card_image_of_injOn]
      intro x hx y hy h
      rcases Finset.mem_Ico.1 (Finset.mem_coe.1 hx) with ⟨h1, h2⟩
      rcases Finset.mem_Ico.1 (Finset.mem_coe.1 hy) with ⟨h3, h4⟩
      exact hi x y h1 h2 h3 h4 h
  intro z hz
  rcases Set.mem_Ico.1 hz with ⟨h1, h2⟩
  have : z ∈ (Finset.Ico (0 : ℤ) b).image f := by
    rw [himg]
    exact Finset.mem_Ico.2 ⟨h1, h2⟩
  rcases Finset.mem_image.1 this with ⟨x, hx, hfx⟩
  rcases Finset.mem_Ico.1 hx with ⟨h3, h4⟩
  exact ⟨x, Set.mem_Ico.2 ⟨h3, h4⟩, hfx⟩

theorem PermuteFace2D_bijOn (face_id1 face_id2 orientation size1d : ℤ)
    (hs : 1 ≤ size1d) :
    Set.BijOn (fun idx => PermuteFace2D face_id1 face_id2 orientation size1d idx)
      (Set.Ico 0 size1d) (Set.Ico 0 size1d) := by
  apply bijOn_Ico_of_mapsTo_injOn
  · intro x h1 h2
    simp only [PermuteFace2D, ToLexOrdering2D]
    split_ifs <;> omega
  · intro x y h1 h2 h3 h4 h
    simp only [PermuteFace2D, ToLexOrdering2D] at h
    split_ifs at h <;> omega

theorem encodeZ_bound (s a b : ℤ) (h1 : 0 ≤ a) (h2 : a < s) (h3 : 0 ≤ b)
    (h4 : b < s) : 0 ≤ a + b * s ∧ a + b * s < s * s := by
  have h5 : 0 ≤ b * s := mul_nonneg h3 (by omega)
  have h6 : b * s ≤ (s - 1) * s := mul_le_mul_of_nonneg_right (by omega) (by omega)
  rw [sub_mul, one_mul] at h6
  omega

theorem encodeZ_inj (s a a' b b' : ℤ) (h1 : 0 ≤ a) (h2 : a < s)
    (h3 : 0 ≤ a') (h4 : a' < s) (h : a + b * s = a' + b' * s) :
    a = a' ∧ b = b' := by
  rcases lt_trichotomy b b' with hb | hb | hb
  · exfalso
    have h5 : (b + 1) * s ≤ b' * s := mul_le_mul_of_nonneg_right (by omega) (by omega)
    rw [add_mul, one_mul] at h5
    omega
  · subst hb
    omega
  · exfalso
    have h5 : (b' + 1) * s ≤ b * s := mul_le_mul_of_nonneg_right (by omega) (by omega)
    rw [add_mul, one_mul] at h5
    omega

theorem ToLexOrdering3D_bound (face_id s i j : ℤ) (h1 : 0 ≤ i) (h2 : i < s)
    (h3 : 0 ≤ j) (h4 : j < s) :
    0 ≤ ToLexOrdering3D face_id s i j ∧ ToLexOrdering3D face_id s i j < s * s := by
  unfold ToLexOrdering3D
  split_ifs <;> (apply encodeZ_bound <;> omega)

theorem ToLexOrdering3D_inj (face_id s i j i' j' : ℤ)
    (hi : 0 ≤ i) (hi2 : i < s) (hj : 0 ≤ j) (hj2 : j < s)
    (hi' : 0 ≤ i') (hi2' : i' < s) (hj' : 0 ≤ j') (hj2' : j' < s)
    (h : ToLexOrdering3D face_id s i j = ToLexOrdering3D face_id s i' j') :
    i = i' ∧ j = j' := by
  unfold ToLexOrdering3D at h
  split_ifs at h
  · exact encodeZ_inj s i i' j j' hi hi2 hi' hi2' h
  · have := encodeZ_inj s (s - 1 - i) (s - 1 - i') j j'
      (by omega) (by omega) (by omega) (by omega) h
    omega
  · have := encodeZ_inj s i i' (s - 1 - j) (s - 1 - j')
      hi hi2 hi' hi2' h
    omega

theorem fromLexI_bound (face_id1 s i : ℤ) (h1 : 0 ≤ i) (h2 : i < s) :
    0 ≤ fromLexI face_id1 s i ∧ fromLexI face_id1 s i < s := by
  unfold fromLexI
  split_ifs <;> omega

theorem fromLexJ_bound (face_id1 s j : ℤ) (h1 : 0 ≤ j) (h2 : j < s) :
    0 ≤ fromLexJ face_id1 s j ∧ fromLexJ face_id1 s j < s := by
  unfold fromLexJ
  split_ifs <;> omega

theorem orientI_bound (orientation s i j : ℤ) (h1 : 0 ≤ i) (h2 : i < s)
    (h3 : 0 ≤ j) (h4 : j < s) :
    0 ≤ orientI orientation s i j ∧ orientI orientation s i j < s := by
  unfold orientI
  split_ifs <;> omega

theorem orientJ_bound (orientation s i j : ℤ) (h1 : 0 ≤ i) (h2 : i < s)
    (h3 : 0 ≤ j) (h4 : j < s) :
    0 ≤ orientJ orientation s i j ∧ orientJ orientation s i j < s := by
  unfold orientJ
  split_ifs <;> omega

theorem orient_inj (orientation s i j i' j' : ℤ)
    (hor1 : 0 ≤ orientation) (hor2 : orientation < 8)
    (e1 : orientI orientation s i j = orientI orientation s i' j')
    (e2 : orientJ orientation s i j = orientJ orientation s i' j') :
    i = i' ∧ j = j' := by
  interval_cases orientation <;>
    (simp only [orientI, orientJ] at e1 e2; norm_num at e1 e2; omega)

theorem fromLex_inj (face_id1 s i j i' j' : ℤ)
    (e1 : fromLexI face_id1 s i = fromLexI face_id1 s i')
    (e2 : fromLexJ face_id1 s j = fromLexJ face_id1 s j') :
    i = i' ∧ j = j' := by
  unfold fromLexI at e1
  unfold fromLexJ at e2
  split_ifs at e1 e2 <;> omega

theorem PermuteFace3D_bijOn (face_id1 face_id2 orientation size1d : ℤ)
    (hs : 1 ≤ size1d) (hor1 : 0 ≤ orientation) (hor2 : orientation < 8) :
    Set.BijOn
      (fun idx => PermuteFace3D face_id1 face_id2 orientation size1d idx)
      (Set.Ico 0 (size1d * size1d)) (Set.Ico 0 (size1d * size1d)) := by
  set s := size1d with hsdef
  apply bijOn_Ico_of_mapsTo_injOn
  · intro x h1 h2
    have hmod : x.tmod s = x % s := Int.tmod_eq_emod h1 (by omega)
    have hdiv : x.tdiv s = x / s := Int.tdiv_eq_ediv h1 (by omega)
    have hi1 : 0 ≤ x % s := Int.emod_nonneg x (by omega)
    have hi2 : x % s < s := Int.emod_lt_of_pos x (by omega)
    have hj1 : 0 ≤ x / s := Int.ediv_nonneg h1 (by omega)
    have hd := Int.ediv_add_emod x s
    have hj2 : x / s < s := by
      by_contra hcon
      push_neg at hcon
      have h5 : s * s ≤ s * (x / s) := mul_le_mul_of_nonneg_left hcon (by omega)
      omega
    unfold PermuteFace3D
    rw [hmod, hdiv]
    obtain ⟨a1, a2⟩ := fromLexI_bound face_id1 s (x % s) hi1 hi2
    obtain ⟨b1, b2⟩ := fromLexJ_bound face_id1 s (x / s) hj1 hj2
    obtain ⟨c1, c2⟩ := orientI_bound orientation s _ _ a1 a2 b1 b2
    obtain ⟨d1, d2⟩ := orientJ_bound orientation s _ _ a1 a2 b1 b2
    exact ToLexOrdering3D_bound face_id2 s _ _ c1 c2 d1 d2
  · intro x y h1 h2 h3 h4 h
    have hmodx : x.tmod s = x % s := Int.tmod_eq_emod h1 (by omega)
    have hdivx : x.tdiv s = x / s := Int.tdiv_eq_ediv h1 (by omega)
    have hmody : y.tmod s = y % s := Int.tmod_eq_emod h3 (by omega)
    have hdivy : y.tdiv s = y / s := Int.tdiv_eq_ediv h3 (by omega)
    have hix1 : 0 ≤ x % s := Int.emod_nonneg x (by omega)
    have hix2 : x % s < s := Int.emod_lt_of_pos x (by omega)
    have hjx1 : 0 ≤ x / s := Int.ediv_nonneg h1 (by omega)
    have hdx := Int.ediv_add_emod x s
    have hjx2 : x / s < s := by
      by_contra hcon
      push_neg at hcon
      have h5 : s * s ≤ s * (x / s) := mul_le_mul_of_nonneg_left hcon (by omega)
      omega
    have hiy1 : 0 ≤ y % s := Int.emod_nonneg y (by omega)
    have hiy2 : y % s < s := Int.emod_lt_of_pos y (by omega)
    have hjy1 : 0 ≤ y / s := Int.ediv_nonneg h3 (by omega)
    have hdy := Int.ediv_add_emod y s
    have hjy2 : y / s < s := by
      by_contra hcon
      push_neg at hcon
      have h5 : s * s ≤ s * (y / s) := mul_le_mul_of_nonneg_left hcon (by omega)
      omega
    unfold PermuteFace3D at h
    rw [hmodx, hdivx, hmody, hdivy] at h
    obtain ⟨ax1, ax2⟩ := fromLexI_bound face_id1 s (x % s) hix1 hix2
    obtain ⟨bx1, bx2⟩ := fromLexJ_bound face_id1 s (x / s) hjx1 hjx2
    obtain ⟨ay1, ay2⟩ := fromLexI_bound face_id1 s (y % s) hiy1 hiy2
    obtain ⟨by1, by2⟩ := fromLexJ_bound face_id1 s (y / s) hjy1 hjy2
    obtain ⟨cx1, cx2⟩ := orientI_bound orientation s _ _ ax1 ax2 bx1 bx2
    obtain ⟨dx1, dx2⟩ := orientJ_bound orientation s _ _ ax1 ax2 bx1 bx2
    obtain ⟨cy1, cy2⟩ := orientI_bound orientation s _ _ ay1 ay2 by1 by2
    obtain ⟨dy1, dy2⟩ := orientJ_bound orientation s _ _ ay1 ay2 by1 by2
    obtain ⟨e1, e2⟩ := ToLexOrdering3D_inj face_id2 s _ _ _ _
      cx1 cx2 dx1 dx2 cy1 cy2 dy1 dy2 h
    obtain ⟨f1, f2⟩ := orient_inj orientation s _ _ _ _ hor1 hor2 e1 e2
    obtain ⟨g1, g2⟩ := fromLex_inj face_id1 s _ _ _ _ f1 f2
    rw [g1, g2] at hdx
    omega

/-- C5: for `dim ∈ {2,3}`, valid face ids, valid orientation codes and any
`size1d ≥ 1`, `PermuteFaceL2 dim face_id1 face_id2 orientation size1d` is a
bijection on the face-dof index set `[0, size1d^(dim-1))`. -/
theorem c5_permute_face_bijection (dim face_id1 face_id2 orientation size1d : ℤ)
    (hdim : dim = 2 ∨ dim = 3)
    (hf1 : 0 ≤ face_id1 ∧ face_id1 < (if dim = 2 then 4 else 6))
    (hf2 : 0 ≤ face_id2 ∧ face_id2 < (if dim = 2 then 4 else 6))
    (hor : 0 ≤ orientation ∧ orientation < (if dim = 2 then 2 else 8))
    (hs : 1 ≤ size1d) :
    Set.BijOn
      (fun idx => PermuteFaceL2 dim face_id1 face_id2 orientation size1d idx)
      (Set.Ico 0 (size1d ^ (dim - 1).toNat))
      (Set.Ico 0 (size1d ^ (dim - 1).toNat)) := by
  rcases hdim with h2 | h3
  · subst h2
    have hpow : ((2 : ℤ) - 1).toNat = 1 := rfl
    rw [hpow, pow_one]
    have hfun : (fun idx => PermuteFaceL2 2 face_id1 face_id2 orientation size1d idx)
        = (fun idx => PermuteFace2D face_id1 face_id2 orientation size1d idx) := by
      funext idx
      simp [PermuteFaceL2]
    rw [hfun]
    exact PermuteFace2D_bijOn face_id1 face_id2 orientation size1d hs
  · subst h3
    have hpow : ((3 : ℤ) - 1).toNat = 2 := rfl
    rw [hpow, pow_two]
    have hfun : (fun idx => PermuteFaceL2 3 face_id1 face_id2 orientation size1d idx)
        = (fun idx => PermuteFace3D face_id1 face_id2 orientation size1d idx) := by
      funext idx
      simp [PermuteFaceL2]
    rw [hfun]
    norm_num at hor
    exact PermuteFace3D_bijOn face_id1 face_id2 orientation size1d hs hor.1 hor.2

/-- Closed instance of C5: 3D, `face_id1 = 0`, `face_id2 = 5`,
orientation 6, `size1d = 3`. -/
theorem c5_permute_face_bijection_witness :
    ((3 : ℤ) = 2 ∨ (3 : ℤ) = 3) ∧
    ((0 : ℤ) ≤ 0 ∧ (0 : ℤ) < (if (3 : ℤ) = 2 then 4 else 6)) ∧
    ((0 : ℤ) ≤ 5 ∧ (5 : ℤ) < (if (3 : ℤ) = 2 then 4 else 6)) ∧
    ((0 : ℤ) ≤ 6 ∧ (6 : ℤ) < (if (3 : ℤ) = 2 then 2 else 8)) ∧
    (1 : ℤ) ≤ 3 ∧
    Set.BijOn (fun idx => PermuteFaceL2 3 0 5 6 3 idx)
      (Set.Ico 0 ((3 : ℤ) ^ ((3 : ℤ) - 1).toNat))
      (Set.Ico 0 ((3 : ℤ) ^ ((3 : ℤ) - 1).toNat)) :=
  ⟨by decide, by decide, by decide, by decide, by decide,
    c5_permute_face_bijection 3 0 5 6 3 (by decide) (by decide) (by decide)
      (by decide) (by decide)⟩

namespace H1FaceRestriction

theorem h1gflat_inj (r : H1FaceRestriction) (j c j' c' : ℕ)
    (hj : j < r.ndofs) (hc : c < r.vdim) (hj' : j' < r.ndofs) (hc' : c' < r.vdim)
    (h : r.gflat j c = r.gflat j' c') : j = j' ∧ c = c' := by
  unfold gflat at h
  by_cases hb : r.byvdim
  · rw [if_pos hb, if_pos hb] at h
    obtain ⟨h1, h2⟩ := encode2_inj r.vdim c c' _ _ hc hc' h
    exact ⟨h2, h1⟩
  · rw [if_neg hb, if_neg hb] at h
    exact encode2_inj r.ndofs j j' _ _ hj hj' h

/-- `MultTranspose` adds the bucket sum onto the previous output contents. -/
theorem MultTranspose_accumulates (r : H1FaceRestriction) (x y : ℕ → ℤ) :
    ∀ i < r.ndofs, ∀ c < r.vdim,
      r.MultTranspose x y (r.gflat i c)
        = y (r.gflat i c)
          + ∑ j in Finset.Ico (r.offsets i) (r.offsets (i + 1)),
              x (r.lflat ((r.gather_indices j).toNat % r.dof) c
                  ((r.gather_indices j).toNat / r.dof)) := by
  intro i hi c hc
  have := writeFold_eval_nodup
    (fun p : ℕ × ℕ => r.gflat p.1 p.2)
    (fun p old =>
      let offset := r.offsets p.1
      let nextOffset := r.offsets (p.1 + 1)
      old + (List.range (nextOffset - offset)).foldl
        (fun acc t =>
          let idx_j := (r.gather_indices (offset + t)).toNat
          acc + x (r.lflat (idx_j % r.dof) p.2 (idx_j / r.dof)))
        0)
    (pairList r.ndofs r.vdim) (i, c) y
    (nodup_pairList _ _)
    ((mem_pairList _ _ _).2 ⟨hi, hc⟩)
    ?_
  · unfold MultTranspose
    rw [this]
    simp only
    rw [foldl_add_eq_sum, zero_add, Finset.sum_Ico_eq_sum_range]
  · intro b hb hbk
    have hbmem := (mem_pairList _ _ b).1 hb
    have hbk' : r.gflat b.1 b.2 = r.gflat i c := by simpa using hbk
    obtain ⟨h1, h2⟩ := r.h1gflat_inj _ _ _ _ hbmem.1 hbmem.2 hi hc hbk'
    cases b with
    | mk b1 b2 =>
      simp only at h1 h2
      rw [h1, h2]

end H1FaceRestriction

/-- C9 counterexample: on the constructed boundary restriction `H1R1` with a
nonzero initial output buffer, `MultTranspose` does NOT set the output entry
of global dof 0 to the bucket sum (it adds the sum onto the 100 already
there: the source uses `+=`, `restriction_now.cpp:1223`, unlike
`ElementRestriction::MultTranspose` which assigns). -/
theorem c9_h1_gather_transpose_counterexample :
    ¬ (H1R1.MultTranspose xone y100 (H1R1.gflat 0 0)
        = ∑ j in Finset.Ico (H1R1.offsets 0) (H1R1.offsets (0 + 1)),
            xone (H1R1.lflat ((H1R1.gather_indices j).toNat % H1R1.dof) 0
                  ((H1R1.gather_indices j).toNat / H1R1.dof))) := by
  decide

/-- C9 amended: `H1FaceRestriction::MultTranspose` computes, for each global
output entry `(gid, c)`, the sum over the face-local slots mapping to `gid`
of the corresponding local values, and ACCUMULATES it onto the previous
contents of the output vector (`+=`), rather than assigning it. -/
theorem c9_h1_gather_transpose_amended (r : H1FaceRestriction) (x y : ℕ → ℤ) :
    ∀ i < r.ndofs, ∀ c < r.vdim,
      r.MultTranspose x y (r.gflat i c)
        = y (r.gflat i c)
          + ∑ j in Finset.Ico (r.offsets i) (r.offsets (i + 1)),
              x (r.lflat ((r.gather_indices j).toNat % r.dof) c
                  ((r.gather_indices j).toNat / r.dof)) :=
  r.MultTranspose_accumulates x y

/-- Closed instance of the amended C9 on `H1R1`. -/
theorem c9_h1_gather_transpose_amended_witness :
    0 < H1R1.ndofs ∧ 0 < H1R1.vdim ∧
    H1R1.MultTranspose xone y100 (H1R1.gflat 0 0)
      = y100 (H1R1.gflat 0 0)
        + ∑ j in Finset.Ico (H1R1.offsets 0) (H1R1.offsets (0 + 1)),
            xone (H1R1.lflat ((H1R1.gather_indices j).toNat % H1R1.dof) 0
                  ((H1R1.gather_indices j).toNat / H1R1.dof)) :=
  ⟨by decide, by decide,
    c9_h1_gather_transpose_amended H1R1 xone y100 0 (by decide) 0 (by decide)⟩

theorem mem_sideList (n m : ℕ) (p : ℕ × ℕ × ℕ) :
    p ∈ sideList n m ↔ p.1 < n ∧ p.2.1 < m ∧ p.2.2 < 2 := by
  rcases p with ⟨i, c, sd⟩
  simp only [sideList, List.mem_flatMap, List.mem_append, List.mem_map,
    List.mem_range, Prod.mk.injEq]
  constructor
  · rintro ⟨i', hi', ⟨c', hc', h1, h2, h3⟩ | ⟨c', hc', h1, h2, h3⟩⟩ <;>
      (subst h1; subst h2; subst h3; exact ⟨hi', hc', by omega⟩)
  · rintro ⟨hi, hc, hs⟩
    refine ⟨i, hi, ?_⟩
    have hs' : sd = 0 ∨ sd = 1 := by omega
    rcases hs' with h | h
    · exact Or.inl ⟨c, hc, rfl, rfl, h.symm⟩
    · exact Or.inr ⟨c, hc, rfl, rfl, h.symm⟩

theorem nodup_sideList (n m : ℕ) : (sideList n m).Nodup := by
  apply List.nodup_flatMap.2
  constructor
  · intro i _
    rw [List.nodup_append]
    refine ⟨(List.nodup_range m).map (fun a b h => by injection h with _ h2; injection h2),
            (List.nodup_range m).map (fun a b h => by injection h with _ h2; injection h2),
            ?_⟩
    intro p hp hq
    rcases List.mem_map.1 hp with ⟨c, _, rfl⟩
    rcases List.mem_map.1 hq with ⟨c', _, hc'⟩
    injection hc' with h1 h2
    injection h2 with h3 h4
    omega
  · apply List.Pairwise.imp ?_ (List.nodup_range n)
    intro i j hij
    intro p hp hq
    have h1 : p.1 = i := by
      rcases List.mem_append.1 hp with h | h <;>
        (rcases List.mem_map.1 h with ⟨c, _, rfl⟩; rfl)
    have h2 : p.1 = j := by
      rcases List.mem_append.1 hq with h | h <;>
        (rcases List.mem_map.1 h with ⟨c, _, rfl⟩; rfl)
    exact hij (h1 ▸ h2)

/-- A loop writing a constant into `B` consecutive cells starting at `k`. -/
theorem constFold_eval (B k : ℕ) (v : ℤ) (si : ℕ → ℤ) (q : ℕ) :
    ((List.range B).foldl (fun si d => Function.update si (k + d) v) si) q
      = if k ≤ q ∧ q < k + B then v else si q := by
  induction B generalizing si with
  | zero =>
    simp only [List.range_zero, List.foldl_nil]
    rw [if_neg (by omega)]
  | succ m ih =>
    rw [List.range_succ, List.foldl_append, List.foldl_cons, List.foldl_nil]
    by_cases hq : q = k + m
    · subst hq
      rw [Function.update_same, if_pos (by omega)]
    · rw [Function.update_noteq (by omega), ih]
      by_cases hq2 : k ≤ q ∧ q < k + m
      · rw [if_pos hq2, if_pos (by omega)]
      · rw [if_neg hq2, if_neg (by omega)]

namespace L2FaceSetup

/-- On an all-boundary mesh, the double-valued scatter pass selects every
face and fills `scatter_indices2` with the sentinel `-1`. -/
theorem scatterLoop_boundary (s : L2FaceSetup)
    (ht : s.type = FaceType.Boundary) (hm : s.m = L2FaceValues.DoubleValued)
    (hb : ∀ f < s.nfaces, s.e2 f < 0) :
    ∀ k ≤ s.nfaces,
      ((List.range k).foldl s.scatterStep (((fun _ => 0), (fun _ => 0)), 0)).2 = k ∧
      (∀ lid < k * s.dof,
        ((List.range k).foldl s.scatterStep (((fun _ => 0), (fun _ => 0)), 0)).1.2 lid = -1) := by
  intro k
  induction k with
  | zero =>
    intro _
    constructor
    · rfl
    · intro lid hlid
      omega
  | succ m ih =>
    intro hk
    obtain ⟨ih1, ih2⟩ := ih (by omega)
    have hstep : (List.range (m + 1)).foldl s.scatterStep (((fun _ => 0), (fun _ => 0)), 0)
        = s.scatterStep ((List.range m).foldl s.scatterStep (((fun _ => 0), (fun _ => 0)), 0)) m := by
      rw [List.range_succ, List.foldl_append, List.foldl_cons, List.foldl_nil]
    set st := (List.range m).foldl s.scatterStep (((fun _ => 0), (fun _ => 0)), 0) with hst
    have hInt : s.selInterior m = false := by
      unfold selInterior
      rw [ht]
      simp
    have hBnd : s.selBoundary m = true := by
      unfold selBoundary
      rw [ht]
      simp only [decide_True, Bool.true_and]
      rw [decide_eq_true_eq]
      exact hb m (by omega)
    rw [hstep]
    unfold scatterStep
    rw [hInt, hBnd]
    simp only [Bool.false_or, if_true, if_pos hm, Bool.false_eq_true, if_false]
    constructor
    · omega
    · intro lid hlid
      rw [ih1, constFold_eval]
      have hco : s.dof * m = m * s.dof := Nat.mul_comm _ _
      have hsu : (m + 1) * s.dof = m * s.dof + s.dof := by ring
      by_cases hin : s.dof * m ≤ lid ∧ lid < s.dof * m + s.dof
      · rw [if_pos hin]
      · rw [if_neg hin]
        exact ih2 lid (by omega)

end L2FaceSetup

namespace L2FaceRestriction

theorem dflat_inj (r : L2FaceRestriction) (d c sd f d' c' sd' f' : ℕ)
    (hd : d < r.dof) (hc : c < r.vdim) (hs : sd < 2) (hf : f < r.nf)
    (hd' : d' < r.dof) (hc' : c' < r.vdim) (hs' : sd' < 2) (hf' : f' < r.nf)
    (h : r.dflat d c sd f = r.dflat d' c' sd' f') :
    d = d' ∧ c = c' ∧ sd = sd' ∧ f = f' := by
  unfold dflat at h
  obtain ⟨h1, h2⟩ := encode2_inj r.dof d d' _ _ hd hd' h
  obtain ⟨h3, h4⟩ := encode2_inj r.vdim c c' _ _ hc hc' h2
  obtain ⟨h5, h6⟩ := encode2_inj 2 sd sd' _ _ hs hs' h4
  exact ⟨h1, h3, h5, h6⟩

/-- In the double-valued `Mult`, every side-2 slot whose `scatter_indices2`
entry is the sentinel `-1` receives exactly `0`. -/
theorem Mult_sentinel_zero (r : L2FaceRestriction)
    (hm : r.m = L2FaceValues.DoubleValued) (x y : ℕ → ℤ) :
    ∀ d < r.dof, ∀ c < r.vdim, ∀ f < r.nf,
      r.scatter_indices2 (f * r.dof + d) = -1 →
      r.Mult x y (r.dflat d c 1 f) = 0 := by
  intro d hd c hc f hf hsent
  have hdof : 0 < r.dof := by omega
  have hi : f * r.dof + d < r.nfdofs := by
    unfold nfdofs
    calc f * r.dof + d < f * r.dof + r.dof := by omega
      _ = (f + 1) * r.dof := by ring
      _ ≤ r.nf * r.dof := Nat.mul_le_mul_right _ (by omega)
  have hrw : f * r.dof + d = d + r.dof * f := by ring
  have hmod : (f * r.dof + d) % r.dof = d := by
    rw [hrw, Nat.add_mul_mod_self_left]
    exact Nat.mod_eq_of_lt hd
  have hdiv : (f * r.dof + d) / r.dof = f := by
    rw [hrw, Nat.add_mul_div_left _ _ hdof, Nat.div_eq_of_lt hd]
    omega
  have hkey : (fun p : ℕ × ℕ × ℕ => r.dflat (p.1 % r.dof) p.2.1 p.2.2 (p.1 / r.dof))
      ((f * r.dof + d, c, 1) : ℕ × ℕ × ℕ) = r.dflat d c 1 f := by
    simp only [hmod, hdiv]
  have heval := writeFold_eval_nodup
    (fun p : ℕ × ℕ × ℕ => r.dflat (p.1 % r.dof) p.2.1 p.2.2 (p.1 / r.dof))
    (fun p _ =>
      if p.2.2 = 0 then
        x (r.gflat (r.scatter_indices1 p.1).toNat p.2.1)
      else
        (if r.scatter_indices2 p.1 = -1 then 0
         else x (r.gflat (r.scatter_indices2 p.1).toNat p.2.1)))
    (sideList r.nfdofs r.vdim) (f * r.dof + d, c, 1) y
    (nodup_sideList _ _)
    ((mem_sideList _ _ _).2 ⟨hi, hc, by simp⟩)
    ?_
  · rw [hkey] at heval
    unfold Mult
    rw [if_pos hm, heval]
    simp only
    rw [if_neg (by simp), if_pos hsent]
  · intro b hb hbk
    have hbmem := (mem_sideList _ _ b).1 hb
    have hb1 : b.1 % r.dof < r.dof := Nat.mod_lt _ hdof
    have hb2 : b.1 / r.dof < r.nf := by
      apply Nat.div_lt_of_lt_mul
      have := hbmem.1
      unfold nfdofs at this
      have hco : r.nf * r.dof = r.dof * r.nf := Nat.mul_comm _ _
      omega
    have hbk' : r.dflat (b.1 % r.dof) b.2.1 b.2.2 (b.1 / r.dof) = r.dflat d c 1 f := by
      simpa [hmod, hdiv] using hbk
    obtain ⟨h1, h2, h3, h4⟩ := r.dflat_inj _ _ _ _ _ _ _ _
      hb1 hbmem.2.1 hbmem.2.2 hb2 hd hc (by omega) hf hbk'
    have hb0 : b.1 = f * r.dof + d := by
      have := Nat.div_add_mod b.1 r.dof
      have hcm : r.dof * (b.1 / r.dof) = (b.1 / r.dof) * r.dof := Nat.mul_comm _ _
      rw [h1, h4] at this
      rw [h4] at hcm
      omega
    rcases b with ⟨b1, b2, b3⟩
    simp only at hb0 h2 h3
    rw [hb0, h2, h3]

end L2FaceRestriction

/-- C7: for a `DoubleValued` `L2FaceRestriction` constructed over boundary
faces, `scatter_indices2` holds the sentinel `-1` at every boundary-face
slot, and `Mult` writes exactly `0` into the side-2 half of the local output
buffer at every slot whose `scatter_indices2` entry is `-1`. -/
theorem c7_l2_boundary_sentinel (s : L2FaceSetup)
    (ht : s.type = FaceType.Boundary) (hm : s.m = L2FaceValues.DoubleValued)
    (hb : ∀ f < s.nfaces, s.e2 f < 0) (hnf : s.nf = s.nfaces) (x y : ℕ → ℤ) :
    (∀ lid < s.construct.nfdofs, s.construct.scatter_indices2 lid = -1) ∧
    (∀ d < s.construct.dof, ∀ c < s.construct.vdim, ∀ f < s.construct.nf,
      s.construct.scatter_indices2 (f * s.construct.dof + d) = -1 →
      s.construct.Mult x y (s.construct.dflat d c 1 f) = 0) := by
  constructor
  · intro lid hlid
    have h := (s.scatterLoop_boundary ht hm hb s.nfaces le_rfl).2 lid ?_
    · exact h
    · have : s.construct.nfdofs = s.nfaces * s.dof := by
        unfold L2FaceRestriction.nfdofs L2FaceSetup.construct
        rw [hnf]
      omega
  · exact s.construct.Mult_sentinel_zero hm x y

/-- Closed instance of C7 on `L2mesh1`. -/
theorem c7_l2_boundary_sentinel_witness :
    (L2mesh1.type = FaceType.Boundary ∧ L2mesh1.m = L2FaceValues.DoubleValued ∧
     (∀ f < L2mesh1.nfaces, L2mesh1.e2 f < 0) ∧ L2mesh1.nf = L2mesh1.nfaces) ∧
    ((∀ lid < L2mesh1.construct.nfdofs,
        L2mesh1.construct.scatter_indices2 lid = -1) ∧
     (∀ d < L2mesh1.construct.dof, ∀ c < L2mesh1.construct.vdim,
      ∀ f < L2mesh1.construct.nf,
        L2mesh1.construct.scatter_indices2 (f * L2mesh1.construct.dof + d) = -1 →
        L2mesh1.construct.Mult xone y100 (L2mesh1.construct.dflat d c 1 f) = 0)) :=
  ⟨⟨rfl, rfl, by decide, rfl⟩,
    c7_l2_boundary_sentinel L2mesh1 rfl rfl (by decide) rfl xone y100⟩

/-- C8 exhibit: on the constructed boundary restriction of `L2mesh1`,
`FillI` consumes the sentinel entries of `scatter_indices2` directly as row
indices with no check: starting from an all-zero counter array, the counter
of "row -1" (out of bounds in the C code) ends at `nf*dof*face_dofs = 16`. -/
theorem c8_fillI_sentinel_misuse :
    L2mesh1.construct.scatter_indices2 0 = -1 ∧
    L2mesh1.construct.FillI (fun _ => 0) (-1) = 16 := by
  decide

theorem filterMap_match_of_nodup (a : ℤ) (B : List ℤ) (hB : B.Nodup) :
    B.filterMap (fun e_j => if a = e_j then some a else none)
      = if a ∈ B then [a] else [] := by
  induction B with
  | nil => simp
  | cons b t ih =>
    rcases List.nodup_cons.1 hB with ⟨hbt, ht⟩
    rw [List.filterMap_cons]
    by_cases hab : a = b
    · subst hab
      simp [ih ht, hbt]
    · simp only [if_neg hab]
      by_cases hat : a ∈ t
      · simp [ih ht, hat, hab]
      · simp [ih ht, hat, hab]

theorem inter_eq_filter (A B : List ℤ) (hB : B.Nodup) :
    A.flatMap (fun e_i =>
        B.filterMap (fun e_j => if e_i = e_j then some e_i else none))
      = A.filter (fun a => decide (a ∈ B)) := by
  induction A with
  | nil => rfl
  | cons a t ih =>
    rw [List.flatMap_cons, ih, filterMap_match_of_nodup a B hB, List.filter_cons]
    by_cases hab : a ∈ B
    · simp [hab]
    · simp [hab]

theorem foldl_min_mem (L : List ℤ) (m : ℤ) :
    L.foldl (fun m v => if v < m then v else m) m = m ∨
    L.foldl (fun m v => if v < m then v else m) m ∈ L := by
  induction L generalizing m with
  | nil => left; rfl
  | cons a t ih =>
    rw [List.foldl_cons]
    by_cases ham : a < m
    · rw [if_pos ham]
      rcases ih a with h | h
      · right; rw [h]; exact List.mem_cons_self a t
      · right; exact List.mem_cons_of_mem a h
    · rw [if_neg ham]
      rcases ih m with h | h
      · left; exact h
      · right; exact List.mem_cons_of_mem a h

theorem foldl_min_le (L : List ℤ) (m : ℤ) :
    L.foldl (fun m v => if v < m then v else m) m ≤ m ∧
    ∀ v ∈ L, L.foldl (fun m v => if v < m then v else m) m ≤ v := by
  induction L generalizing m with
  | nil => exact ⟨le_refl m, by simp⟩
  | cons a t ih =>
    rw [List.foldl_cons]
    by_cases ham : a < m
    · rw [if_pos ham]
      rcases ih a with ⟨h1, h2⟩
      refine ⟨by omega, ?_⟩
      intro v hv
      rcases List.mem_cons.1 hv with rfl | hvt
      · exact h1
      · exact h2 v hvt
    · rw [if_neg ham]
      rcases ih m with ⟨h1, h2⟩
      refine ⟨h1, ?_⟩
      intro v hv
      rcases List.mem_cons.1 hv with rfl | hvt
      · omega
      · exact h2 v hvt

/-- `GetMinElt` returns a common element of the two lists which is a lower
bound of all common elements, provided the second list has no duplicates
and a common element exists. -/
theorem GetMinElt_spec (A B : List ℤ) (hB : B.Nodup)
    (hne : ∃ z, z ∈ A ∧ z ∈ B) :
    (GetMinElt A B ∈ A ∧ GetMinElt A B ∈ B) ∧
    ∀ z ∈ A, z ∈ B → GetMinElt A B ≤ z := by
  unfold GetMinElt
  rw [inter_eq_filter A B hB]
  rcases hne with ⟨z, hzA, hzB⟩
  have hz : z ∈ A.filter (fun a => decide (a ∈ B)) :=
    List.mem_filter.2 ⟨hzA, by simpa using hzB⟩
  rcases hcons : A.filter (fun a => decide (a ∈ B)) with _ | ⟨h, t⟩
  · rw [hcons] at hz; simp at hz
  · simp only [List.headD_cons, List.drop_succ_cons, List.drop_zero]
    have hmem := foldl_min_mem t h
    have hle := foldl_min_le t h
    have hres : t.foldl (fun m v => if v < m then v else m) h
        ∈ A.filter (fun a => decide (a ∈ B)) := by
      rw [hcons]
      rcases hmem with he | he
      · rw [he]; exact List.mem_cons_self h t
      · exact List.mem_cons_of_mem h he
    have hresF := List.mem_filter.1 hres
    refine ⟨⟨hresF.1, by simpa using hresF.2⟩, ?_⟩
    intro w hwA hwB
    have hw : w ∈ A.filter (fun a => decide (a ∈ B)) :=
      List.mem_filter.2 ⟨hwA, by simpa using hwB⟩
    rw [hcons] at hw
    rcases List.mem_cons.1 hw with rfl | hwt
    · exact hle.1
    · exact hle.2 w hwt

theorem mem_tripleList (n m : ℕ) (t : ℕ × ℕ × ℕ) :
    t ∈ tripleList n m ↔ t.1 < n ∧ t.2.1 < m ∧ t.2.2 < m := by
  rcases t with ⟨e, i, j⟩
  simp only [tripleList, List.mem_flatMap, List.mem_map, List.mem_range]
  constructor
  · rintro ⟨a, ha, p, hp, hpe⟩
    have h1 : a = e := by
      have := congrArg Prod.fst hpe
      simpa using this
    have h2 : p = (i, j) := by
      have := congrArg Prod.snd hpe
      simpa using this
    subst h1
    subst h2
    rcases (mem_pairList m m (i, j)).1 hp with ⟨hi, hj⟩
    exact ⟨ha, hi, hj⟩
  · rintro ⟨he, hi, hj⟩
    exact ⟨e, he, (i, j), (mem_pairList m m (i, j)).2 ⟨hi, hj⟩, rfl⟩

theorem nodup_tripleList (n m : ℕ) : (tripleList n m).Nodup := by
  unfold tripleList
  induction n with
  | zero => simp
  | succ k ih =>
    rw [List.range_succ, List.flatMap_append]
    rw [List.nodup_append]
    refine ⟨ih, ?_, ?_⟩
    · simp only [List.flatMap_cons, List.flatMap_nil, List.append_nil]
      exact (nodup_pairList m m).map
        (fun p q hpq => by
          have := congrArg Prod.snd hpq
          simpa using this)
    · intro t ht ht'
      simp only [List.flatMap_cons, List.flatMap_nil, List.append_nil,
        List.mem_map] at ht'
      rcases ht' with ⟨p, _, hpe⟩
      rcases List.mem_flatMap.1 ht with ⟨a, ha, hta⟩
      rcases List.mem_map.1 hta with ⟨q, _, hqe⟩
      have h1 : t.1 = a := by rw [← hqe]
      have h2 : t.1 = k := by rw [← hpe]
      rw [List.mem_range] at ha
      omega

/-- On a duplicate-free list, `countP` is the cardinality of the
correspondingly filtered `Finset`. -/
theorem countP_toFinset {α : Type} [DecidableEq α] (L : List α) (hL : L.Nodup)
    (p : α → Prop) [DecidablePred p] :
    L.countP (fun a => decide (p a)) = (L.toFinset.filter p).card := by
  induction L with
  | nil => simp
  | cons a t ih =>
    rcases List.nodup_cons.1 hL with ⟨hat, ht⟩
    rw [List.countP_cons, List.toFinset_cons, Finset.filter_insert]
    by_cases hpa : p a
    · rw [if_pos hpa, Finset.card_insert_of_not_mem
        (fun hc => hat (List.mem_toFinset.1 (Finset.mem_of_mem_filter a hc)))]
      simp [hpa, ih ht]
    · rw [if_neg hpa]
      simp [hpa, ih ht]

namespace ElementRestriction

theorem fillIBody_eq (r : ElementRestriction) (e i j : ℕ) (I : ℤ → ℕ) :
    r.fillIBody e i j I = if r.fillCondP (e, i, j) then
      Function.update I (r.rowOfZ (e, i, j)) (I (r.rowOfZ (e, i, j)) + 1)
    else I := by
  unfold fillIBody fillCondP rowOfZ colOfZ
  by_cases h1 : r.nbElts (r.gatherMap (e * r.dof + i)).toNat = 1 ∨
      r.nbElts (r.gatherMap (e * r.dof + j)).toNat = 1
  · rw [if_pos h1, if_pos (by tauto)]
  · rw [if_neg h1]
    by_cases h2 : (e : ℤ) = GetMinElt
        (r.eltsList (r.gatherMap (e * r.dof + i)).toNat)
        (r.eltsList (r.gatherMap (e * r.dof + j)).toNat)
    · rw [if_pos h2, if_pos (by tauto)]
    · rw [if_neg h2, if_neg (by tauto)]

set_option maxHeartbeats 1000000 in
theorem fillICount_eval (r : ElementRestriction) (q : ℤ) :
    r.fillICount q = (tripleList r.ne r.dof).countP
      (fun t => decide (r.fillCondP t) && decide (r.rowOfZ t = q)) := by
  have hflat : r.fillICount = (tripleList r.ne r.dof).foldl
      (fun I t => r.fillIBody t.1 t.2.1 t.2.2 I) (fun _ => 0) := by
    unfold fillICount tripleList
    have h1 : ∀ (e : ℕ) (I : ℤ → ℕ),
        (List.range r.dof).foldl
          (fun I i => (List.range r.dof).foldl
            (fun I j => r.fillIBody e i j I) I) I
          = (pairList r.dof r.dof).foldl
            (fun I p => r.fillIBody e p.1 p.2 I) I := by
      intro e I
      exact foldl_nested_eq_bind (fun I p => r.fillIBody e p.1 p.2 I)
        (List.range r.dof) (fun _ => List.range r.dof) I
    have h2 : (fun (I : ℤ → ℕ) (e : ℕ) => (List.range r.dof).foldl
          (fun I i => (List.range r.dof).foldl
            (fun I j => r.fillIBody e i j I) I) I)
        = (fun (I : ℤ → ℕ) (e : ℕ) => (pairList r.dof r.dof).foldl
            (fun I p => r.fillIBody e p.1 p.2 I) I) := by
      funext I e
      exact h1 e I
    rw [h2]
    exact @foldl_nested_eq_bind ℕ (ℕ × ℕ) (ℤ → ℕ)
      (fun I t => r.fillIBody t.1 t.2.1 t.2.2 I)
      (List.range r.ne) (fun _ => pairList r.dof r.dof) (fun _ => 0)
  have hbody : (fun (I : ℤ → ℕ) (t : ℕ × ℕ × ℕ) =>
        r.fillIBody t.1 t.2.1 t.2.2 I)
      = (fun (I : ℤ → ℕ) (t : ℕ × ℕ × ℕ) =>
          if decide (r.fillCondP t) = true then
            Function.update I (r.rowOfZ t) (I (r.rowOfZ t) + 1)
          else I) := by
    funext I t
    rw [fillIBody_eq]
    simp only [decide_eq_true_eq]
  have heval := foldl_count_cond_eval r.rowOfZ
    (fun t => decide (r.fillCondP t)) (tripleList r.ne r.dof)
    (fun _ => 0) q
  rw [hflat, hbody, heval]
  exact Nat.zero_add _

theorem fillISum_eval_aux (n : ℕ) (I : ℤ → ℕ) :
    (((List.range n).foldl
        (fun st (i : ℕ) => (Function.update st.1 (i : ℤ) st.2, st.2 + st.1 (i : ℤ)))
        (I, 0)).2 = ∑ g in Finset.range n, I (g : ℤ)) ∧
    ∀ q : ℤ, (∀ i < n, (i : ℤ) ≠ q) →
      (((List.range n).foldl
        (fun st (i : ℕ) => (Function.update st.1 (i : ℤ) st.2, st.2 + st.1 (i : ℤ)))
        (I, 0)).1 q = I q) := by
  induction n with
  | zero => exact ⟨by simp, fun q _ => rfl⟩
  | succ m ih =>
    rw [List.range_succ, List.foldl_append, List.foldl_cons, List.foldl_nil]
    rcases ih with ⟨ih1, ih2⟩
    constructor
    · show _ + _ = _
      rw [ih1, ih2 (m : ℤ) (fun i hi => by
        intro hc
        exact absurd (Nat.cast_injective hc) (by omega)),
        Finset.sum_range_succ]
    · intro q hq
      dsimp only
      rw [Function.update_noteq (Ne.symm (hq m (by omega))),
        ih2 q (fun i hi => hq i (by omega))]

theorem fillISum_eval (r : ElementRestriction) :
    r.fillISum.2 = ∑ g in Finset.range (r.vdim * r.ndofs), r.fillICount (g : ℤ) := by
  unfold fillISum
  exact (fillISum_eval_aux (r.vdim * r.ndofs) r.fillICount).1

end ElementRestriction

/-- Casting compatibility of the C integer division with `ℕ` division. -/
theorem tdiv_natCast (a b : ℕ) : (a : ℤ).tdiv (b : ℤ) = ((a / b : ℕ) : ℤ) := rfl

/-- `countP` respects pointwise equality of predicates on the list. -/
theorem countP_congr_mem {α : Type} (L : List α) (p q : α → Bool)
    (h : ∀ a ∈ L, p a = q a) : L.countP p = L.countP q := by
  induction L with
  | nil => rfl
  | cons a t ih =>
    rw [List.countP_cons, List.countP_cons, h a (List.mem_cons_self a t),
      ih (fun b hb => h b (List.mem_cons_of_mem a hb))]

namespace ElementRestriction

theorem mem_touches (r : ElementRestriction) (g e : ℕ) :
    e ∈ r.touches g ↔ e < r.ne ∧ ∃ i < r.dof, r.pgid (e * r.dof + i) = g := by
  unfold touches
  simp [Finset.mem_filter]

theorem slot_lt (r : ElementRestriction) (e i : ℕ) (he : e < r.ne)
    (hi : i < r.dof) : e * r.dof + i < r.N := by
  have h2 : (e + 1) * r.dof ≤ r.ne * r.dof :=
    Nat.mul_le_mul (by omega) (le_refl r.dof)
  rw [Nat.succ_mul] at h2
  have hN : r.N = r.ne * r.dof := rfl
  omega

theorem slot_div (r : ElementRestriction) (e i : ℕ) (hi : i < r.dof) :
    (e * r.dof + i) / r.dof = e := by
  have hd : 0 < r.dof := by omega
  have h : e * r.dof + i = r.dof * e + i := by ring
  rw [h, Nat.mul_add_div hd, Nat.div_eq_of_lt hi, Nat.add_zero]

theorem slot_mod (r : ElementRestriction) (e i : ℕ) (hi : i < r.dof) :
    (e * r.dof + i) % r.dof = i := by
  have h : e * r.dof + i = r.dof * e + i := by ring
  rw [h, Nat.mul_add_mod, Nat.mod_eq_of_lt hi]

theorem slot_decomp (r : ElementRestriction) (l : ℕ) (hl : l < r.N) :
    l / r.dof < r.ne ∧ l % r.dof < r.dof ∧ (l / r.dof) * r.dof + l % r.dof = l := by
  have hN : l < r.ne * r.dof := hl
  have hdof : 0 < r.dof := by
    rcases Nat.eq_zero_or_pos r.dof with h | h
    · rw [h, Nat.mul_zero] at hN; omega
    · exact h
  have hN2 : l < r.dof * r.ne := by rw [Nat.mul_comm]; exact hN
  refine ⟨Nat.div_lt_of_lt_mul hN2, Nat.mod_lt _ hdof, ?_⟩
  have hdm := Nat.div_add_mod l r.dof
  have hc : (l / r.dof) * r.dof = r.dof * (l / r.dof) := Nat.mul_comm _ _
  omega

theorem gatherMap_eq_pgid (r : ElementRestriction) (hP : r.AllPlus) (l : ℕ)
    (hl : l < r.N) : r.gatherMap l = (r.pgid l : ℤ) := by
  unfold gatherMap
  rw [if_pos (hP l hl)]

theorem wval_eq (r : ElementRestriction) (hP : r.AllPlus) (l : ℕ)
    (hl : l < r.N) : r.wval l = (l : ℤ) := by
  unfold wval
  rw [if_pos (hP l hl)]

theorem nbElts_eq_cnt (r : ElementRestriction) (hG : r.ValidGids)
    (hM : r.ValidMap) (g : ℕ) (hg : g < r.ndofs) : r.nbElts g = r.cnt g := by
  unfold nbElts
  rw [r.offsets_eval hG hM g (by omega), r.offsets_eval hG hM (g + 1) (by omega),
    r.offsets1_succ g hg]
  omega

theorem pgid_div_inj (r : ElementRestriction) (hD : r.DupFree) (l1 l2 : ℕ)
    (h1 : l1 < r.N) (h2 : l2 < r.N) (g : ℕ) (hg1 : r.pgid l1 = g)
    (hg2 : r.pgid l2 = g) (hdiv : l1 / r.dof = l2 / r.dof) : l1 = l2 := by
  rcases r.slot_decomp l1 h1 with ⟨he1, hi1, hd1⟩
  rcases r.slot_decomp l2 h2 with ⟨_, hi2, hd2⟩
  have hmod : l1 % r.dof = l2 % r.dof := by
    apply hD (l1 / r.dof) he1 (l1 % r.dof) hi1 (l2 % r.dof) hi2
    rw [hd1, hdiv, hd2, hg1, hg2]
  have hpe : (l1 / r.dof) * r.dof = (l2 / r.dof) * r.dof := by rw [hdiv]
  omega

theorem cnt_eq_card_touches (r : ElementRestriction) (hM : r.ValidMap)
    (hD : r.DupFree) (g : ℕ) : r.cnt g = (r.touches g).card := by
  rw [← r.cntp_N_eq_cnt hM]
  unfold cntp touches
  apply Finset.card_bij (fun l _ => l / r.dof)
  · intro l hlm
    rcases Finset.mem_filter.1 hlm with ⟨hlr, hlg⟩
    have hl := Finset.mem_range.1 hlr
    rcases r.slot_decomp l hl with ⟨h1, h2, h3⟩
    refine Finset.mem_filter.2 ⟨Finset.mem_range.2 h1, ?_⟩
    exact ⟨l % r.dof, Finset.mem_range.2 h2, by rw [h3]; exact hlg⟩
  · intro l1 hl1 l2 hl2 hdiv
    rcases Finset.mem_filter.1 hl1 with ⟨hr1, hg1⟩
    rcases Finset.mem_filter.1 hl2 with ⟨hr2, hg2⟩
    exact r.pgid_div_inj hD l1 l2 (Finset.mem_range.1 hr1)
      (Finset.mem_range.1 hr2) g hg1 hg2 hdiv
  · intro e hem
    rcases Finset.mem_filter.1 hem with ⟨her, i, hir, hpe⟩
    refine ⟨e * r.dof + i, Finset.mem_filter.2
      ⟨Finset.mem_range.2 (r.slot_lt e i (Finset.mem_range.1 her)
        (Finset.mem_range.1 hir)), hpe⟩,
      r.slot_div e i (Finset.mem_range.1 hir)⟩

theorem mem_eltsList (r : ElementRestriction) (hG : r.ValidGids)
    (hM : r.ValidMap) (hP : r.AllPlus) (g : ℕ) (hg : g < r.ndofs) (z : ℤ) :
    z ∈ r.eltsList g ↔ ∃ l < r.N, r.pgid l = g ∧ z = ((l / r.dof : ℕ) : ℤ) := by
  unfold eltsList
  rw [List.mem_map]
  constructor
  · rintro ⟨k, hk, rfl⟩
    rw [List.mem_range, r.nbElts_eq_cnt hG hM g hg] at hk
    have hj2 : r.offsets1 g + k < r.offsets1 (g + 1) := by
      rw [r.offsets1_succ g hg]; omega
    rcases r.bucket_surj hG hM g hg (r.offsets1 g + k) (Nat.le_add_right _ _) hj2
      with ⟨l, hl, hpg, hpos⟩
    refine ⟨l, hl, hpg, ?_⟩
    have h1 : r.offsets g + k = r.pos l := by
      rw [r.offsets_eval hG hM g (by omega), hpos]
    rw [h1, r.indices_at_pos hG hM l hl, r.wval_eq hP l hl]
    exact tdiv_natCast l r.dof
  · rintro ⟨l, hl, hpg, rfl⟩
    refine ⟨r.cntp l g, ?_, ?_⟩
    · rw [List.mem_range, r.nbElts_eq_cnt hG hM g hg]
      have hc := r.cntp_lt_cnt hM l hl
      rw [hpg] at hc
      exact hc
    · have h1 : r.offsets g + r.cntp l g = r.pos l := by
        rw [r.offsets_eval hG hM g (by omega)]
        unfold pos
        rw [hpg]
      rw [h1, r.indices_at_pos hG hM l hl, r.wval_eq hP l hl]
      exact tdiv_natCast l r.dof

theorem mem_eltsList_touches (r : ElementRestriction) (hG : r.ValidGids)
    (hM : r.ValidMap) (hP : r.AllPlus) (g : ℕ) (hg : g < r.ndofs) (z : ℤ) :
    z ∈ r.eltsList g ↔ ∃ e ∈ r.touches g, z = (e : ℤ) := by
  rw [r.mem_eltsList hG hM hP g hg]
  constructor
  · rintro ⟨l, hl, hpg, rfl⟩
    rcases r.slot_decomp l hl with ⟨h1, h2, h3⟩
    refine ⟨l / r.dof, (r.mem_touches g _).2 ⟨h1, l % r.dof, h2, ?_⟩, rfl⟩
    rw [h3]; exact hpg
  · rintro ⟨e, het, rfl⟩
    rcases (r.mem_touches g e).1 het with ⟨he, i, hi, hpe⟩
    exact ⟨e * r.dof + i, r.slot_lt e i he hi, hpe, by rw [r.slot_div e i hi]⟩

theorem eltsList_nodup (r : ElementRestriction) (hG : r.ValidGids)
    (hM : r.ValidMap) (hP : r.AllPlus) (hD : r.DupFree) (g : ℕ)
    (hg : g < r.ndofs) : (r.eltsList g).Nodup := by
  unfold eltsList
  refine List.Nodup.map_on ?_ (List.nodup_range _)
  intro k1 hk1 k2 hk2 hf
  rw [List.mem_range, r.nbElts_eq_cnt hG hM g hg] at hk1 hk2
  rcases r.bucket_surj hG hM g hg (r.offsets1 g + k1) (Nat.le_add_right _ _)
    (by rw [r.offsets1_succ g hg]; omega) with ⟨l1, hl1, hp1, hpos1⟩
  rcases r.bucket_surj hG hM g hg (r.offsets1 g + k2) (Nat.le_add_right _ _)
    (by rw [r.offsets1_succ g hg]; omega) with ⟨l2, hl2, hp2, hpos2⟩
  have hoff : r.offsets g = r.offsets1 g := r.offsets_eval hG hM g (by omega)
  rw [hoff, ← hpos1, ← hpos2, r.indices_at_pos hG hM l1 hl1,
    r.indices_at_pos hG hM l2 hl2, r.wval_eq hP l1 hl1, r.wval_eq hP l2 hl2,
    tdiv_natCast, tdiv_natCast, Nat.cast_inj] at hf
  have hll : l1 = l2 := r.pgid_div_inj hD l1 l2 hl1 hl2 g hp1 hp2 hf
  have hpp : r.pos l1 = r.pos l2 := by rw [hll]
  rw [hpos1, hpos2] at hpp
  omega

theorem minCommon_spec (r : ElementRestriction) (hG : r.ValidGids)
    (hM : r.ValidMap) (hP : r.AllPlus) (hD : r.DupFree) (gi gj : ℕ)
    (hgi : gi < r.ndofs) (hgj : gj < r.ndofs)
    (hne : ((r.touches gi) ∩ (r.touches gj)).Nonempty) :
    ∃ e0 ∈ (r.touches gi) ∩ (r.touches gj),
      GetMinElt (r.eltsList gi) (r.eltsList gj) = (e0 : ℤ) ∧
      ∀ e ∈ (r.touches gi) ∩ (r.touches gj), e0 ≤ e := by
  rcases hne with ⟨ew, hew⟩
  have hewi := Finset.mem_inter.1 hew
  have hzA : (ew : ℤ) ∈ r.eltsList gi :=
    (r.mem_eltsList_touches hG hM hP gi hgi _).2 ⟨ew, hewi.1, rfl⟩
  have hzB : (ew : ℤ) ∈ r.eltsList gj :=
    (r.mem_eltsList_touches hG hM hP gj hgj _).2 ⟨ew, hewi.2, rfl⟩
  have hspec := GetMinElt_spec (r.eltsList gi) (r.eltsList gj)
    (r.eltsList_nodup hG hM hP hD gj hgj) ⟨(ew : ℤ), hzA, hzB⟩
  rcases (r.mem_eltsList_touches hG hM hP gi hgi _).1 hspec.1.1
    with ⟨e1, he1, heq1⟩
  rcases (r.mem_eltsList_touches hG hM hP gj hgj _).1 hspec.1.2
    with ⟨e2, he2, heq2⟩
  have hcast : (e1 : ℤ) = (e2 : ℤ) := by rw [← heq1, ← heq2]
  have he12 : e1 = e2 := Nat.cast_inj.1 hcast
  refine ⟨e1, Finset.mem_inter.2 ⟨he1, by rw [he12]; exact he2⟩, heq1, ?_⟩
  intro e hee
  have heei := Finset.mem_inter.1 hee
  have hzi : (e : ℤ) ∈ r.eltsList gi :=
    (r.mem_eltsList_touches hG hM hP gi hgi _).2 ⟨e, heei.1, rfl⟩
  have hzj : (e : ℤ) ∈ r.eltsList gj :=
    (r.mem_eltsList_touches hG hM hP gj hgj _).2 ⟨e, heei.2, rfl⟩
  have hle := hspec.2 (e : ℤ) hzi hzj
  rw [heq1] at hle
  exact_mod_cast hle

end ElementRestriction

theorem toFinset_tripleList (n m : ℕ) :
    (tripleList n m).toFinset
      = (Finset.range n) ×ˢ ((Finset.range m) ×ˢ (Finset.range m)) := by
  ext t
  rw [List.mem_toFinset, mem_tripleList]
  simp [Finset.mem_product]

namespace ElementRestriction

theorem fillCondP_char (r : ElementRestriction) (hG : r.ValidGids)
    (hM : r.ValidMap) (hP : r.AllPlus) (hD : r.DupFree) (t : ℕ × ℕ × ℕ)
    (ht : t ∈ r.fillTriples) :
    r.fillCondP t ↔ ((r.touches (r.rowL t)).card = 1 ∨
      (r.touches (r.colL t)).card = 1 ∨
      (t.1 : ℤ) = GetMinElt (r.eltsList (r.rowL t)) (r.eltsList (r.colL t))) := by
  rcases Finset.mem_product.1 ht with ⟨hte, htp⟩
  rcases Finset.mem_product.1 htp with ⟨hti, htj⟩
  rw [Finset.mem_range] at hte hti htj
  have hsli : t.1 * r.dof + t.2.1 < r.N := r.slot_lt _ _ hte hti
  have hslj : t.1 * r.dof + t.2.2 < r.N := r.slot_lt _ _ hte htj
  have hrow : (r.rowOfZ t).toNat = r.rowL t := by
    unfold rowOfZ
    rw [r.gatherMap_eq_pgid hP _ hsli]
    exact Int.toNat_natCast _
  have hcol : (r.colOfZ t).toNat = r.colL t := by
    unfold colOfZ
    rw [r.gatherMap_eq_pgid hP _ hslj]
    exact Int.toNat_natCast _
  have hrlt : r.rowL t < r.ndofs := r.pgid_lt hG hM _ hsli
  have hclt : r.colL t < r.ndofs := r.pgid_lt hG hM _ hslj
  unfold fillCondP
  rw [hrow, hcol, r.nbElts_eq_cnt hG hM _ hrlt, r.nbElts_eq_cnt hG hM _ hclt,
    r.cnt_eq_card_touches hM hD, r.cnt_eq_card_touches hM hD]

theorem contributors_card_one (r : ElementRestriction) (hG : r.ValidGids)
    (hM : r.ValidMap) (hP : r.AllPlus) (hD : r.DupFree) (p : ℕ × ℕ)
    (hp : p ∈ r.Couples) : (r.contributors p).card = 1 := by
  rcases p with ⟨gi, gj⟩
  rcases Finset.mem_filter.1 hp with ⟨hpr, hne⟩
  rcases Finset.mem_product.1 hpr with ⟨hgi, hgj⟩
  rw [Finset.mem_range] at hgi hgj
  have key : ∃ e0, e0 ∈ r.touches gi ∩ r.touches gj ∧
      ∀ e ∈ r.touches gi ∩ r.touches gj,
        (((r.touches gi).card = 1 ∨ (r.touches gj).card = 1 ∨
          (e : ℤ) = GetMinElt (r.eltsList gi) (r.eltsList gj)) ↔ e = e0) := by
    by_cases ha : (r.touches gi).card = 1
    · rcases Finset.card_eq_one.1 ha with ⟨e1, he1⟩
      have hsub : r.touches gi ∩ r.touches gj ⊆ {e1} := by
        rw [← he1]; exact Finset.inter_subset_left
      rcases hne with ⟨w, hw⟩
      have hwe := Finset.mem_singleton.1 (hsub hw)
      refine ⟨e1, by rw [← hwe]; exact hw, ?_⟩
      intro e he
      have hee1 := Finset.mem_singleton.1 (hsub he)
      exact ⟨fun _ => hee1, fun _ => Or.inl ha⟩
    · by_cases hb : (r.touches gj).card = 1
      · rcases Finset.card_eq_one.1 hb with ⟨e1, he1⟩
        have hsub : r.touches gi ∩ r.touches gj ⊆ {e1} := by
          rw [← he1]; exact Finset.inter_subset_right
        rcases hne with ⟨w, hw⟩
        have hwe := Finset.mem_singleton.1 (hsub hw)
        refine ⟨e1, by rw [← hwe]; exact hw, ?_⟩
        intro e he
        have hee1 := Finset.mem_singleton.1 (hsub he)
        exact ⟨fun _ => hee1, fun _ => Or.inr (Or.inl hb)⟩
      · rcases r.minCommon_spec hG hM hP hD gi gj hgi hgj hne
          with ⟨e0, he0, hm0, _⟩
        refine ⟨e0, he0, ?_⟩
        intro e _
        constructor
        · rintro (h | h | h)
          · exact absurd h ha
          · exact absurd h hb
          · rw [hm0] at h
            exact_mod_cast h
        · rintro rfl
          exact Or.inr (Or.inr hm0.symm)
  rcases key with ⟨e0, he0T, hiff⟩
  have he0i := (Finset.mem_inter.1 he0T).1
  have he0j := (Finset.mem_inter.1 he0T).2
  rcases (r.mem_touches gi e0).1 he0i with ⟨he0n, i0, hi0, hpi0⟩
  rcases (r.mem_touches gj e0).1 he0j with ⟨_, j0, hj0, hpj0⟩
  rw [Finset.card_eq_one]
  refine ⟨(e0, i0, j0), ?_⟩
  rw [Finset.eq_singleton_iff_unique_mem]
  have htT : (e0, i0, j0) ∈ r.fillTriples :=
    Finset.mem_product.2 ⟨Finset.mem_range.2 he0n,
      Finset.mem_product.2 ⟨Finset.mem_range.2 hi0, Finset.mem_range.2 hj0⟩⟩
  constructor
  · refine Finset.mem_filter.2 ⟨htT, ?_, hpi0, hpj0⟩
    rw [r.fillCondP_char hG hM hP hD _ htT]
    have hrl : r.rowL (e0, i0, j0) = gi := hpi0
    have hcl : r.colL (e0, i0, j0) = gj := hpj0
    rw [hrl, hcl]
    exact (hiff e0 he0T).2 rfl
  · rintro ⟨e, i, j⟩ htm
    rcases Finset.mem_filter.1 htm with ⟨htT2, hcond, hrow, hcol⟩
    rcases Finset.mem_product.1 htT2 with ⟨her, hpr2⟩
    rcases Finset.mem_product.1 hpr2 with ⟨hir, hjr⟩
    rw [Finset.mem_range] at her hir hjr
    have heT : e ∈ r.touches gi ∩ r.touches gj := by
      refine Finset.mem_inter.2 ⟨?_, ?_⟩
      · exact (r.mem_touches gi e).2 ⟨her, i, hir, hrow⟩
      · exact (r.mem_touches gj e).2 ⟨her, j, hjr, hcol⟩
    have hce := (r.fillCondP_char hG hM hP hD _ htT2).1 hcond
    have hrl2 : r.rowL (e, i, j) = gi := hrow
    have hcl2 : r.colL (e, i, j) = gj := hcol
    rw [hrl2, hcl2] at hce
    have hee0 : e = e0 := (hiff e heT).1 hce
    subst hee0
    have hri : r.pgid (e * r.dof + i) = gi := hrow
    have hii : i = i0 := hD e her i hir i0 hi0 (by rw [hri, hpi0])
    have hrj : r.pgid (e * r.dof + j) = gj := hcol
    have hjj : j = j0 := hD e her j hjr j0 hj0 (by rw [hrj, hpj0])
    rw [hii, hjj]

theorem fillITotal_eq (r : ElementRestriction) (hG : r.ValidGids)
    (hM : r.ValidMap) (hP : r.AllPlus) (hv : 1 ≤ r.vdim) :
    r.FillI.2 = (r.fillTriples.filter (fun t => r.fillCondP t)).card := by
  have h1 : r.FillI.2 = r.fillISum.2 := rfl
  rw [h1, r.fillISum_eval]
  have hterm : ∀ g : ℕ, r.fillICount (g : ℤ)
      = ((r.fillTriples.filter (fun t => r.fillCondP t)).filter
          (fun t => r.rowL t = g)).card := by
    intro g
    rw [r.fillICount_eval]
    have hcong : (tripleList r.ne r.dof).countP
        (fun t => decide (r.fillCondP t) && decide (r.rowOfZ t = (g : ℤ)))
        = (tripleList r.ne r.dof).countP
          (fun t => decide (r.fillCondP t ∧ r.rowL t = g)) := by
      apply countP_congr_mem
      intro t ht
      rw [mem_tripleList] at ht
      have hsl : t.1 * r.dof + t.2.1 < r.N := r.slot_lt _ _ ht.1 ht.2.1
      have hr : r.rowOfZ t = ((r.rowL t : ℕ) : ℤ) := r.gatherMap_eq_pgid hP _ hsl
      have hd2 : decide (r.rowOfZ t = (g : ℤ)) = decide (r.rowL t = g) := by
        rw [decide_eq_decide, hr]
        exact Nat.cast_inj
      rw [hd2]
      by_cases hA : r.fillCondP t <;> by_cases hB : r.rowL t = g <;>
        simp [hA, hB]
    rw [hcong, countP_toFinset _ (nodup_tripleList _ _), toFinset_tripleList,
      Finset.filter_filter]
    rfl
  rw [Finset.sum_congr rfl (fun g _ => hterm g)]
  have H : ∀ t ∈ r.fillTriples.filter (fun t => r.fillCondP t),
      r.rowL t ∈ Finset.range (r.vdim * r.ndofs) := by
    intro t ht
    have htT := Finset.mem_of_mem_filter t ht
    rcases Finset.mem_product.1 htT with ⟨hte, htp⟩
    rcases Finset.mem_product.1 htp with ⟨hti, _⟩
    have hlt : r.rowL t < r.ndofs := r.pgid_lt hG hM _
      (r.slot_lt _ _ (Finset.mem_range.1 hte) (Finset.mem_range.1 hti))
    have hnd : 1 * r.ndofs ≤ r.vdim * r.ndofs :=
      Nat.mul_le_mul hv (le_refl r.ndofs)
    rw [one_mul] at hnd
    exact Finset.mem_range.2 (by omega)
  rw [Finset.card_eq_sum_card_fiberwise H]

theorem fillICond_card_eq_couples (r : ElementRestriction) (hG : r.ValidGids)
    (hM : r.ValidMap) :
    (r.fillTriples.filter (fun t => r.fillCondP t)).card
      = ∑ p in r.Couples, (r.contributors p).card := by
  have H : ∀ t ∈ r.fillTriples.filter (fun t => r.fillCondP t),
      (r.rowL t, r.colL t) ∈ r.Couples := by
    intro t ht
    rcases Finset.mem_filter.1 ht with ⟨htT, _⟩
    rcases Finset.mem_product.1 htT with ⟨hte, htp⟩
    rcases Finset.mem_product.1 htp with ⟨hti, htj⟩
    rw [Finset.mem_range] at hte hti htj
    have hsli : t.1 * r.dof + t.2.1 < r.N := r.slot_lt _ _ hte hti
    have hslj : t.1 * r.dof + t.2.2 < r.N := r.slot_lt _ _ hte htj
    refine Finset.mem_filter.2 ⟨Finset.mem_product.2
      ⟨Finset.mem_range.2 (r.pgid_lt hG hM _ hsli),
       Finset.mem_range.2 (r.pgid_lt hG hM _ hslj)⟩, ?_⟩
    exact ⟨t.1, Finset.mem_inter.2
      ⟨(r.mem_touches _ _).2 ⟨hte, t.2.1, hti, rfl⟩,
       (r.mem_touches _ _).2 ⟨hte, t.2.2, htj, rfl⟩⟩⟩
  rw [Finset.card_eq_sum_card_fiberwise H]
  apply Finset.sum_congr rfl
  intro p _
  rw [Finset.filter_filter]
  unfold contributors
  congr 1
  apply Finset.filter_congr
  intro t _
  simp [Prod.ext_iff]

end ElementRestriction

/-- C6: in `ElementRestriction::FillI`, every coupled pair of global DOFs
`(i_L, j_L)` is counted by exactly one loop triple — when both DOFs are
shared (`nbElts > 1` on both sides) only the element returned by
`GetMinElt` (the minimum of the intersection of the two element lists)
increments row `i_L` — and the returned total equals the number of
distinct coupled `(row, column)` DOF pairs.  Hypotheses: valid incidence
table and `dof_map`, all `gatherMap` entries stored with positive sign,
no DOF repeated within one element, `vdim ≥ 1`, and every DOF shared by
at most `MaxNbNbr = 16` elements (the capacity of the C stack arrays). -/
theorem c6_filli_tie_break (r : ElementRestriction) (hG : r.ValidGids)
    (hM : r.ValidMap) (hP : r.AllPlus) (hD : r.DupFree) (hv : 1 ≤ r.vdim)
    (hX : ∀ g < r.ndofs, r.cnt g ≤ 16) :
    (∀ p ∈ r.Couples, (r.contributors p).card = 1) ∧
    r.FillI.2 = r.Couples.card := by
  constructor
  · exact fun p hp => r.contributors_card_one hG hM hP hD p hp
  · rw [r.fillITotal_eq hG hM hP hv, r.fillICond_card_eq_couples hG hM,
      Finset.sum_congr rfl (fun p hp => r.contributors_card_one hG hM hP hD p hp)]
    simp

/-- Closed instance of C6 on the two-element order-1 segment mesh `ER2`:
the nnz total is `7`, the number of coupled DOF pairs among the three
global DOFs `{0, 1, 2}` (all pairs except `(0,2)` and `(2,0)`). -/
theorem c6_filli_tie_break_witness :
    (ER2.ValidGids ∧ ER2.ValidMap ∧ ER2.AllPlus ∧ ER2.DupFree ∧
     1 ≤ ER2.vdim ∧ ∀ g < ER2.ndofs, ER2.cnt g ≤ 16) ∧
    ((∀ p ∈ ER2.Couples, (ER2.contributors p).card = 1) ∧
     ER2.FillI.2 = ER2.Couples.card) ∧
    ER2.FillI.2 = 7 :=
  ⟨⟨by decide, by decide, by decide, by decide, by decide, by decide⟩,
   c6_filli_tie_break ER2 (by decide) (by decide) (by decide) (by decide)
     (by decide) (by decide),
   by decide⟩
